import Mathlib

/-!
# DWARF type materializer (`libdrgn/dwarf_info_cache.c`): shallow embedding

This file embeds the DWARF-to-type materializer of `dwarf_info_cache.c` in
Lean and proves the specification claims about it.  The embedding follows the
C source function by function:

* `subrange_length`, `parse_member_offset`, `parse_member`,
  `drgn_compound_type_from_dwarf`, `parse_enumerator`,
  `drgn_enum_type_from_dwarf`, `drgn_typedef_type_from_dwarf`,
  `drgn_pointer_type_from_dwarf`, `drgn_array_type_from_dwarf`,
  `parse_formal_parameter`, `drgn_function_type_from_dwarf`,
  `drgn_base_type_from_dwarf`, `drgn_dwarf_info_cache_find_complete`,
  `drgn_type_from_dwarf_child`, `drgn_lazy_type_from_dwarf`,
  `drgn_type_from_dwarf_internal`, `drgn_object_from_dwarf_enumerator`.

Machine integers (`Dwarf_Word`, `uint64_t`) are `Nat` with explicit `% 2^64`
where overflow matters.  The recursion of `drgn_type_from_dwarf_internal` is
made structural with a fuel parameter; fuel exhaustion is a distinguished
outcome (`DErr.outOfFuel`) that the C code cannot produce, and the top-level
entry point uses fuel 1001, which the 1000-deep recursion guard makes
sufficient.

External collaborators of the materializer that are not part of the two
source files (the hash table, the type factory, the name index, the object
layer) are modelled from the specification's interface descriptions; their
definitions carry a `Modelled from the spec:` doc comment.
-/

namespace Drgn

/-- A DIE key: the stable address of a DIE inside the loaded debug image. -/
abbrev Addr := Nat

/-- 2^64, the modulus of `Dwarf_Word` / `uint64_t` arithmetic. -/
def w64 : Nat := 18446744073709551616

/-- `uint64_t` addition. -/
def add64 (a b : Nat) : Nat := (a + b) % w64

/-- `uint64_t` subtraction (two's complement wraparound). -/
def sub64 (a b : Nat) : Nat := (a % w64 + (w64 - b % w64)) % w64

/-- `uint64_t` multiplication. -/
def mul64 (a b : Nat) : Nat := (a * b) % w64

/-- Reinterpret a 64-bit word as a signed integer (`Dwarf_Sword`). -/
def toSigned64 (wd : Nat) : Int :=
  if wd % w64 < w64 / 2 then ((wd % w64 : Nat) : Int)
  else ((wd % w64 : Nat) : Int) - (w64 : Int)

/-- DWARF attribute forms that matter to the materializer: `DW_FORM_sdata`
and `DW_FORM_implicit_const` are decoded as signed by `parse_enumerator`, and
`subrange_length` special-cases an sdata `DW_AT_upper_bound` of -1.  All
other `dwarf_formudata`-compatible forms are collapsed into `udata`. -/
inductive AForm where
  | sdata
  | implicit_const
  | udata
deriving DecidableEq, Repr

/-- A numeric DWARF attribute: its form plus its value as a 64-bit word. -/
structure NumAttr where
  form : AForm
  word : Nat
deriving DecidableEq, Repr

/-- DWARF tag numbers used by the materializer. -/
def DW_TAG_array_type : Nat := 1
def DW_TAG_class_type : Nat := 2
def DW_TAG_enumeration_type : Nat := 4
def DW_TAG_formal_parameter : Nat := 5
def DW_TAG_member : Nat := 13
def DW_TAG_pointer_type : Nat := 15
def DW_TAG_structure_type : Nat := 19
def DW_TAG_subroutine_type : Nat := 21
def DW_TAG_typedef : Nat := 22
def DW_TAG_union_type : Nat := 23
def DW_TAG_unspecified_parameters : Nat := 24
def DW_TAG_subrange_type : Nat := 33
def DW_TAG_base_type : Nat := 36
def DW_TAG_const_type : Nat := 38
def DW_TAG_enumerator : Nat := 40
def DW_TAG_subprogram : Nat := 46
def DW_TAG_volatile_type : Nat := 53
def DW_TAG_restrict_type : Nat := 55
def DW_TAG_atomic_type : Nat := 71

/-- DWARF base-type encodings (`DW_ATE_*`). -/
def DW_ATE_boolean : Nat := 2
def DW_ATE_complex_float : Nat := 3
def DW_ATE_float : Nat := 4
def DW_ATE_signed : Nat := 5
def DW_ATE_signed_char : Nat := 6
def DW_ATE_unsigned : Nat := 7
def DW_ATE_unsigned_char : Nat := 8

/-- The attributes of a DIE that the materializer reads.  Attribute access in
the C code goes through `dwarf_attr_integrate`, which follows
`DW_AT_specification` / `DW_AT_abstract_origin` links; the embedding models
the already-integrated view: each accessor is a plain field.  An `Option`
value of `none` means the (integrated) attribute is absent.  Attributes are
well-typed by construction, so the `dwarf_formudata`-failure error paths of
the C code ("invalid DW_AT_x") are unreachable in the model except for
dangling DIE references, which are checked explicitly. -/
structure DieAttrs where
  nameA : Option String := none
  encoding : Option Nat := none
  byteSize : Option Nat := none
  declFlag : Bool := false
  typeRef : Option Addr := none
  upperBound : Option NumAttr := none
  countA : Option NumAttr := none
  bitSize : Option Nat := none
  bitOffset : Option Nat := none
  dataBitOffset : Option Nat := none
  dataMemberLocation : Option Nat := none
  constValue : Option NumAttr := none
deriving Repr

/-- A DWARF debugging information entry: a tag, attributes, and child DIEs.
Cross-DIE references (`DW_AT_type`) are by address into the image. -/
inductive Die where
  | mk (tag : Nat) (attrs : DieAttrs) (children : List Die)

def Die.tag : Die → Nat
  | .mk t _ _ => t

def Die.attrs : Die → DieAttrs
  | .mk _ a _ => a

def Die.children : Die → List Die
  | .mk _ _ c => c

/-- Modelled from the spec: the DIE store and name index collaborators
(§6 "Consumed (upstream)").  `dies` maps stable addresses to DIEs;
`index` is the name index: given a DWARF tag and a name it yields the
addresses of the matching DIEs, excluding declaration-only DIEs, in
iteration order.  `littleEndian` is the ELF-header byte order consulted by
`dwarf_die_is_little_endian` when `check_attr` is false, and `wordSize` is
`drgn_program_word_size`. -/
structure Image where
  dies : Addr → Option Die
  littleEndian : Bool
  wordSize : Nat
  index : Nat → String → List Addr

/-- Error taxonomy of `drgn_error` as used by this file.  Message strings of
`DRGN_ERROR_OTHER` errors are kept; `outOfFuel` is an artifact of the fuel
encoding and corresponds to no C behavior. -/
inductive DErr where
  | other (msg : String)
  | overflow
  | recursion
  | stop
  | lookup
  | notFound
  | nomem
  | outOfFuel
deriving DecidableEq, Repr

/-- Type kinds (`enum drgn_type_kind`).  Incomplete compound/enum/array
types have the same kind as their complete forms. -/
inductive TypeKind where
  | voidK
  | boolK
  | intK
  | floatK
  | complexK
  | structK
  | unionK
  | classK
  | enumK
  | typedefK
  | pointerK
  | arrayK
  | functionK
deriving DecidableEq, Repr

/-- The three compound kinds handled by `drgn_compound_type_from_dwarf`. -/
inductive CompKind where
  | structC
  | unionC
  | classC
deriving DecidableEq, Repr

def CompKind.toTag : CompKind → Nat
  | .structC => DW_TAG_structure_type
  | .unionC => DW_TAG_union_type
  | .classC => DW_TAG_class_type

/-- A type descriptor handle: the allocation index in the type heap.
The C descriptors are heap pointers; pointer identity is allocation
identity. -/
abbrev TypeHandle := Nat

/-- Qualifier bitmask (`enum drgn_qualifiers`): const = 1, volatile = 2,
restrict = 4, atomic = 8. -/
abbrev Quals := Nat

def DRGN_QUALIFIER_CONST : Nat := 1
def DRGN_QUALIFIER_VOLATILE : Nat := 2
def DRGN_QUALIFIER_RESTRICT : Nat := 4
def DRGN_QUALIFIER_ATOMIC : Nat := 8

/-- `struct drgn_qualified_type`. -/
structure QualType where
  type : TypeHandle
  quals : Quals
deriving DecidableEq, Repr

/-- `struct drgn_lazy_type`: either an evaluated qualified type or a thunk
holding the target DIE address and the `can_be_incomplete_array` flag
(`struct drgn_type_from_dwarf_thunk`). -/
inductive LazyType where
  | thunk (target : Addr) (canIncomplete : Bool)
  | val (qt : QualType)
deriving DecidableEq, Repr

/-- A compound member as collected by `drgn_compound_type_builder_add_member`. -/
structure Member where
  nameA : Option String
  ty : LazyType
  bitOffset : Nat
  bitFieldSize : Nat
deriving DecidableEq, Repr

/-- An enumerator as collected by the enum builder.  The C builder stores a
64-bit union of `svalue`/`uvalue`; the model stores the raw 64-bit word and
whether it was added through the signed entry point. -/
structure EnumItem where
  nameA : String
  word : Nat
  addedSigned : Bool
deriving DecidableEq, Repr

/-- A function parameter as collected by
`drgn_function_type_builder_add_parameter`. -/
structure Param where
  nameA : Option String
  ty : LazyType
deriving DecidableEq, Repr

/-- Modelled from the spec: the descriptors produced by the external type
factory (§6: `create_{void,bool,int,float,complex,compound,enum,
incomplete_compound,incomplete_enum,typedef,pointer,array,incomplete_array,
function}`).  Each constructor records the fields the materializer passes
to the corresponding factory function. -/
inductive TypeDesc where
  | voidT
  | boolT (nameA : String) (size : Nat)
  | intT (nameA : String) (size : Nat) (isSigned : Bool)
  | floatT (nameA : String) (size : Nat)
  | complexT (nameA : String) (size : Nat) (real : TypeHandle)
  | compoundT (kind : CompKind) (tagName : Option String) (size : Nat)
      (members : List Member)
  | incompleteCompoundT (kind : CompKind) (tagName : Option String)
  | enumT (tagName : Option String) (compatible : TypeHandle)
      (items : List EnumItem)
  | incompleteEnumT (tagName : Option String)
  | typedefT (nameA : String) (aliased : QualType)
  | pointerT (referenced : QualType) (size : Nat)
  | arrayT (elem : QualType) (length : Nat)
  | incompleteArrayT (elem : QualType)
  | functionT (ret : QualType) (params : List Param) (variadic : Bool)
deriving DecidableEq, Repr

/-- Modelled from the spec: the type factory's allocation arena.  Handles
are allocation indices; `descs` is newest-first so that allocation is O(1).
The factory allocates a fresh descriptor on every create call (§3: "Only
the factory mutates descriptors; the materializer treats them as values"),
except for the per-program void singleton, which lives at handle 0. -/
structure Heap where
  descs : List TypeDesc
  size : Nat
deriving Repr

/-- Look a handle up in the heap. -/
def Heap.at' (h : Heap) (k : TypeHandle) : Option TypeDesc :=
  if k < h.size then h.descs.get? (h.size - 1 - k) else none

/-- Allocate a descriptor, returning its fresh handle. -/
def Heap.alloc (h : Heap) (d : TypeDesc) : TypeHandle × Heap :=
  (h.size, ⟨d :: h.descs, h.size + 1⟩)

/-- The initial heap: only the void singleton (`drgn_void_type`). -/
def initHeap : Heap := ⟨[TypeDesc.voidT], 1⟩

/-- The handle of the void singleton. -/
def voidHandle : TypeHandle := 0

/-- `drgn_type_kind` of a descriptor. -/
def TypeDesc.kind : TypeDesc → TypeKind
  | .voidT => .voidK
  | .boolT _ _ => .boolK
  | .intT _ _ _ => .intK
  | .floatT _ _ => .floatK
  | .complexT _ _ _ => .complexK
  | .compoundT k _ _ _ | .incompleteCompoundT k _ =>
    match k with
    | .structC => .structK
    | .unionC => .unionK
    | .classC => .classK
  | .enumT _ _ _ | .incompleteEnumT _ => .enumK
  | .typedefT _ _ => .typedefK
  | .pointerT _ _ => .pointerK
  | .arrayT _ _ | .incompleteArrayT _ => .arrayK
  | .functionT _ _ _ => .functionK

/-- `drgn_type_kind` through a handle. -/
def kindOf (h : Heap) (k : TypeHandle) : Option TypeKind :=
  (h.at' k).map TypeDesc.kind

/-- Modelled from the spec: `drgn_type_has_size` / `drgn_type_size` of the
external type layer.  Void, function, and incomplete types have no size;
typedefs, enums, and arrays derive theirs from the underlying type.  The
fuel argument bounds typedef/array chains; `typeSize` supplies enough fuel
for any heap built by the factory (aliased handles are strictly smaller
than the alias). -/
def typeSizeF : Nat → Heap → TypeHandle → Option Nat
  | 0, _, _ => none
  | fuel + 1, h, k =>
    match h.at' k with
    | none => none
    | some d =>
      match d with
      | .voidT => none
      | .boolT _ s => some s
      | .intT _ s _ => some s
      | .floatT _ s => some s
      | .complexT _ s _ => some s
      | .compoundT _ _ s _ => some s
      | .incompleteCompoundT _ _ => none
      | .enumT _ c _ => typeSizeF fuel h c
      | .incompleteEnumT _ => none
      | .typedefT _ a => typeSizeF fuel h a.type
      | .pointerT _ s => some s
      | .arrayT e n => (typeSizeF fuel h e.type).map (fun s => mul64 n s)
      | .incompleteArrayT _ => none
      | .functionT _ _ _ => none

def typeSize (h : Heap) (k : TypeHandle) : Option Nat := typeSizeF (k + 1) h k

/-- `struct dwarf_type_map_entry` values: the memoized
`{type, qualifiers, is_incomplete_array}` triple. -/
structure MapEntry where
  type : TypeHandle
  quals : Quals
  inc : Bool
deriving DecidableEq, Repr

/-- Modelled from the spec: a keyed map from DIE address to memo entry
(the `dwarf_type_map` hash table), as a function with pointwise update. -/
abbrev DTypeMap := Addr → Option MapEntry

def mapInsert (m : DTypeMap) (a : Addr) (e : MapEntry) : DTypeMap :=
  fun x => if x = a then some e else m x

/-- The mutable state of `struct drgn_dwarf_info_cache` threaded through the
materializer: the primary map (`map`), the restricted map
(`cant_be_incomplete_array_map`), the recursion depth counter, and the type
factory arena. -/
structure State where
  map : DTypeMap
  cmap : DTypeMap
  depth : Nat
  heap : Heap

/-- `drgn_dwarf_info_cache_create`: empty maps, depth 0, pristine heap. -/
def initState : State :=
  { map := fun _ => none, cmap := fun _ => none, depth := 0, heap := initHeap }

/-- Allocate a descriptor inside the state. -/
def State.alloc (st : State) (d : TypeDesc) : TypeHandle × State :=
  let (k, h) := st.heap.alloc d
  (k, { st with heap := h })

/-- `struct array_dimension`. -/
structure Dimension where
  length : Nat
  is_complete : Bool
deriving DecidableEq, Repr, Inhabited

/-- `subrange_length`: decode one `DW_TAG_subrange_type` child into an array
dimension.  Missing `DW_AT_upper_bound` and `DW_AT_count` means incomplete;
an sdata `DW_AT_upper_bound` of -1 is the GCC idiom for a zero-length
array; otherwise `upper_bound + 1` with an overflow check, or `count`
verbatim. -/
def subrange_length (die : Die) : Except DErr Dimension :=
  match die.attrs.upperBound, die.attrs.countA with
  | none, none => .ok ⟨0, false⟩
  | upper, count =>
    let isUpper := upper.isSome
    let attr := match upper with
      | some a => a
      | none => count.getD ⟨.udata, 0⟩
    if isUpper ∧ attr.form = AForm.sdata ∧ attr.word = w64 - 1 then
      .ok ⟨0, true⟩
    else if isUpper then
      if w64 - 1 ≤ attr.word then .error .overflow
      else .ok ⟨attr.word + 1, true⟩
    else
      if w64 - 1 < attr.word then .error .overflow
      else .ok ⟨attr.word, true⟩

/-- The result of one call to `drgn_type_from_dwarf_internal`: either an
error, or the qualified type together with the value written through the
`is_incomplete_array_ret` out-pointer (`none` when the call returned without
writing it, as the memo-hit paths do), plus the updated cache state. -/
abbrev RRes := (Except DErr (QualType × Option Bool)) × State

/-- The recursive entry point seen by the dispatchers (one fuel step down). -/
abbrev Resolver := State → Addr → Bool → RRes

/-- `drgn_lazy_type_from_dwarf`: build a deferred type for `DW_AT_type` of
`parent`, failing if the attribute is missing or dangling.  The thunk holds
the target DIE and the `can_be_incomplete_array` flag. -/
def drgn_lazy_type_from_dwarf (img : Image) (parent : Die)
    (canInc : Bool) (tagName : String) : Except DErr LazyType :=
  match parent.attrs.typeRef with
  | none => .error (.other (tagName ++ " is missing DW_AT_type"))
  | some t =>
    match img.dies t with
    | none => .error (.other (tagName ++ " has invalid DW_AT_type"))
    | some _ => .ok (.thunk t canInc)

/-- `drgn_lazy_type_evaluate`: force a lazy type.  A thunk re-enters the
memoization core through `drgn_type_from_dwarf_thunk_evaluate_fn` (which
passes a null `is_incomplete_array_ret`) and is replaced in place by the
resulting qualified type. -/
def drgn_lazy_type_evaluate (rec : Resolver) (st : State) (lt : LazyType) :
    (Except DErr (QualType × LazyType)) × State :=
  match lt with
  | .val qt => (.ok (qt, .val qt), st)
  | .thunk t c =>
    match rec st t c with
    | (.ok (v, _), st') => (.ok (v, .val v), st')
    | (.error e, st') => (.error e, st')

/-- `drgn_type_from_dwarf_child`: resolve the `DW_AT_type` attribute of
`parent`.  A missing attribute is void when `canVoid`, an error otherwise;
a dangling reference is an error.  The returned `Option Bool` forwards the
out-parameter write of the nested call (the void path writes nothing). -/
def drgn_type_from_dwarf_child (rec : Resolver) (img : Image) (st : State)
    (parent : Die) (tagName : String) (canVoid canInc : Bool) :
    (Except DErr (QualType × Option Bool)) × State :=
  match parent.attrs.typeRef with
  | none =>
    if canVoid then (.ok (⟨voidHandle, 0⟩, none), st)
    else (.error (.other (tagName ++ " is missing DW_AT_type")), st)
  | some t =>
    match img.dies t with
    | none => (.error (.other (tagName ++ " has invalid DW_AT_type")), st)
    | some _ => rec st t canInc

/-- `drgn_base_type_from_dwarf`: decode a `DW_TAG_base_type` DIE.  Requires
name, encoding, and byte size; maps the `DW_ATE_*` encoding to a factory
call, recursing into `DW_AT_type` for `DW_ATE_complex_float`. -/
def drgn_base_type_from_dwarf (rec : Resolver) (img : Image) (st : State)
    (die : Die) : (Except DErr TypeHandle) × State :=
  match die.attrs.nameA with
  | none =>
    (.error (.other "DW_TAG_base_type has missing or invalid DW_AT_name"), st)
  | some nm =>
    match die.attrs.encoding with
    | none =>
      (.error
        (.other "DW_TAG_base_type has missing or invalid DW_AT_encoding"), st)
    | some enc =>
      match die.attrs.byteSize with
      | none =>
        (.error
          (.other "DW_TAG_base_type has missing or invalid DW_AT_byte_size"),
         st)
      | some size =>
        if enc = DW_ATE_boolean then
          let (k, st') := st.alloc (.boolT nm size)
          (.ok k, st')
        else if enc = DW_ATE_float then
          let (k, st') := st.alloc (.floatT nm size)
          (.ok k, st')
        else if enc = DW_ATE_signed ∨ enc = DW_ATE_signed_char then
          let (k, st') := st.alloc (.intT nm size true)
          (.ok k, st')
        else if enc = DW_ATE_unsigned ∨ enc = DW_ATE_unsigned_char then
          let (k, st') := st.alloc (.intT nm size false)
          (.ok k, st')
        else if enc = DW_ATE_complex_float then
          match die.attrs.typeRef with
          | none =>
            (.error
              (.other "DW_TAG_base_type has missing or invalid DW_AT_type"),
             st)
          | some t =>
            match img.dies t with
            | none =>
              (.error
                (.other "DW_TAG_base_type has missing or invalid DW_AT_type"),
               st)
            | some _ =>
              match rec st t true with
              | (.error e, st') => (.error e, st')
              | (.ok (v, _), st') =>
                if kindOf st'.heap v.type = some TypeKind.floatK ∨
                    kindOf st'.heap v.type = some TypeKind.intK then
                  let (k, st2) := st'.alloc (.complexT nm size v.type)
                  (.ok k, st2)
                else
                  (.error (.other
                    "DW_AT_type of DW_ATE_complex_float is not a floating-point or integer type"),
                   st')
        else (.error (.other "DW_TAG_base_type has unknown DWARF encoding"), st)

/-- `parse_member_offset`: compute a member's bit offset from
`DW_AT_data_bit_offset`, or from `DW_AT_data_member_location` (bytes,
default 0) plus the legacy `DW_AT_bit_offset` arithmetic: on big-endian the
bit offset is added directly; on little-endian the member's byte size
(`DW_AT_byte_size`, else the size of the member's type, evaluating the lazy
type if necessary and failing if it has no size) enters as
`8*byte_size - bit_offset - bit_field_size`.  All arithmetic is `uint64_t`.
Returns the (possibly evaluated-in-place) lazy member type alongside. -/
def parse_member_offset (rec : Resolver) (st : State) (die : Die)
    (member_type : LazyType) (bit_field_size : Nat) (little_endian : Bool) :
    (Except DErr (Nat × LazyType)) × State :=
  match die.attrs.dataBitOffset with
  | some wd => (.ok (wd, member_type), st)
  | none =>
    let ret0 := mul64 8 (die.attrs.dataMemberLocation.getD 0)
    match die.attrs.bitOffset with
    | none => (.ok (ret0, member_type), st)
    | some bo =>
      if little_endian then
        match die.attrs.byteSize with
        | some bs =>
          (.ok (add64 ret0 (sub64 (sub64 (mul64 8 bs) bo) bit_field_size),
                member_type), st)
        | none =>
          match drgn_lazy_type_evaluate rec st member_type with
          | (.error e, st') => (.error e, st')
          | (.ok (qt, mt'), st') =>
            match typeSize st'.heap qt.type with
            | none =>
              (.error
                (.other "DW_TAG_member bit field type does not have size"),
               st')
            | some s =>
              (.ok (add64 ret0 (sub64 (sub64 (mul64 8 s) bo) bit_field_size),
                    mt'), st')
      else (.ok (add64 ret0 bo, member_type), st)

/-- `parse_member`: decode one `DW_TAG_member` child: optional name,
`DW_AT_bit_size` (default 0), the lazy member type (created with the given
`can_be_incomplete_array` flag), and the bit offset; append the member to
the builder. -/
def parse_member (rec : Resolver) (img : Image) (st : State) (die : Die)
    (little_endian canInc : Bool) (builder : List Member) :
    (Except DErr (List Member)) × State :=
  let nm := die.attrs.nameA
  let bit_field_size := die.attrs.bitSize.getD 0
  match drgn_lazy_type_from_dwarf img die canInc "DW_TAG_member" with
  | .error e => (.error e, st)
  | .ok member_type =>
    match parse_member_offset rec st die member_type bit_field_size
        little_endian with
    | (.error e, st') => (.error e, st')
    | (.ok (bit_offset, mt'), st') =>
      (.ok (builder ++ [⟨nm, mt', bit_offset, bit_field_size⟩]), st')

/-- The member-processing loop of `drgn_compound_type_from_dwarf`: every
member but the last is parsed with `can_be_incomplete_array = false`; the
last is parsed with `kind != DRGN_TYPE_UNION && builder.members.size > 0`
(flexible array members are only allowed as the last member of a non-union
with at least one other member). -/
def processMembers (rec : Resolver) (img : Image) (little_endian : Bool)
    (kind : CompKind) :
    List Die → List Member → State → (Except DErr (List Member)) × State
  | [], builder, st => (.ok builder, st)
  | [m], builder, st =>
    parse_member rec img st m little_endian
      (decide (kind ≠ CompKind.unionC) && decide (0 < builder.length)) builder
  | m :: m2 :: rest, builder, st =>
    match parse_member rec img st m little_endian false builder with
    | (.error e, st') => (.error e, st')
    | (.ok builder', st') =>
      processMembers rec img little_endian kind (m2 :: rest) builder' st'

/-- The `DW_TAG_member` children of a DIE, in document order. -/
def memberChildren (die : Die) : List Die :=
  die.children.filter (fun c => c.tag = DW_TAG_member)

/-- `drgn_dwarf_info_cache_find_complete`: search the name index for the
complete definition matching `(tag, name)`.  No hit or more than one hit is
the routine `DRGN_ERROR_STOP` outcome; exactly one hit is materialized
through the memoization core (dropping qualifiers). -/
def drgn_dwarf_info_cache_find_complete (rec : Resolver) (img : Image)
    (st : State) (dwTag : Nat) (nm : String) :
    (Except DErr TypeHandle) × State :=
  match img.index dwTag nm with
  | [] => (.error .stop, st)
  | [d] =>
    match rec st d true with
    | (.ok (v, _), st') => (.ok v.type, st')
    | (.error e, st') => (.error e, st')
  | _ :: _ :: _ => (.error .stop, st)

/-- `drgn_compound_type_from_dwarf`: decode a structure/union/class DIE.
A declaration with a tag name first tries the incomplete-type resolver;
`DRGN_ERROR_STOP` from it falls through to an incomplete compound.  A
complete DIE requires `DW_AT_byte_size` and parses its `DW_TAG_member`
children. -/
def drgn_compound_type_from_dwarf (rec : Resolver) (img : Image) (st : State)
    (die : Die) (kind : CompKind) : (Except DErr TypeHandle) × State :=
  let tagName := die.attrs.nameA
  let isDecl := die.attrs.declFlag
  let completePath : State → (Except DErr TypeHandle) × State := fun s =>
    match die.attrs.byteSize with
    | none =>
      (.error (.other "compound type has missing or invalid DW_AT_byte_size"),
       s)
    | some size =>
      match processMembers rec img img.littleEndian kind (memberChildren die)
          [] s with
      | (.error e, s') => (.error e, s')
      | (.ok members, s') =>
        let (k, s2) := s'.alloc (.compoundT kind tagName size members)
        (.ok k, s2)
  match isDecl, tagName with
  | true, some n =>
    (match drgn_dwarf_info_cache_find_complete rec img st kind.toTag n with
     | (.ok k, st') => (.ok k, st')
     | (.error e, st') =>
       if e = .stop then
         let (k, st2) := st'.alloc (.incompleteCompoundT kind tagName)
         (.ok k, st2)
       else (.error e, st'))
  | true, none =>
    let (k, st') := st.alloc (.incompleteCompoundT kind tagName)
    (.ok k, st')
  | false, _ => completePath st

/-- `parse_enumerator`: decode one `DW_TAG_enumerator` child into the enum
builder.  `DW_FORM_sdata` / `DW_FORM_implicit_const` values are added
signed (and a negative value records the signedness heuristic for the
fallback compatible type); everything else is added unsigned. -/
def parse_enumerator (die : Die) (items : List EnumItem) (is_signed : Bool) :
    Except DErr (List EnumItem × Bool) :=
  match die.attrs.nameA with
  | none =>
    .error (.other "DW_TAG_enumerator has missing or invalid DW_AT_name")
  | some nm =>
    match die.attrs.constValue with
    | none =>
      .error (.other "DW_TAG_enumerator is missing DW_AT_const_value")
    | some a =>
      if a.form = AForm.sdata ∨ a.form = AForm.implicit_const then
        .ok (items ++ [⟨nm, a.word, true⟩],
             is_signed ∨ decide (toSigned64 a.word < 0))
      else
        .ok (items ++ [⟨nm, a.word, false⟩], is_signed)

/-- The enumerator-collecting loop of `drgn_enum_type_from_dwarf`. -/
def collectEnumerators :
    List Die → List EnumItem → Bool → Except DErr (List EnumItem × Bool)
  | [], items, s => .ok (items, s)
  | c :: rest, items, s =>
    if c.tag = DW_TAG_enumerator then
      match parse_enumerator c items s with
      | .error e => .error e
      | .ok (items', s') => collectEnumerators rest items' s'
    else collectEnumerators rest items s

/-- `enum_compatible_type_fallback`: fabricate the compatible type of an
enum whose producer omitted `DW_AT_type`: an int named `<unknown>` of the
DIE's byte size, signed iff some enumerator was negative. -/
def enum_compatible_type_fallback (st : State) (die : Die)
    (is_signed : Bool) : (Except DErr TypeHandle) × State :=
  match die.attrs.byteSize with
  | none =>
    (.error
      (.other
        "DW_TAG_enumeration_type has missing or invalid DW_AT_byte_size"),
     st)
  | some size =>
    let (k, st') := st.alloc (.intT "<unknown>" size is_signed)
    (.ok k, st')

/-- `drgn_enum_type_from_dwarf`: decode a `DW_TAG_enumeration_type` DIE:
declaration handling as for compounds, then enumerator children, then the
compatible type (`DW_AT_type`, which must be an int kind, or the
fallback). -/
def drgn_enum_type_from_dwarf (rec : Resolver) (img : Image) (st : State)
    (die : Die) : (Except DErr TypeHandle) × State :=
  let tagName := die.attrs.nameA
  let isDecl := die.attrs.declFlag
  let completePath : State → (Except DErr TypeHandle) × State := fun s =>
    match collectEnumerators die.children [] false with
    | .error e => (.error e, s)
    | .ok (items, is_signed) =>
      let finish : State → TypeHandle → (Except DErr TypeHandle) × State :=
        fun s2 compatible =>
          let (k, s3) := s2.alloc (.enumT tagName compatible items)
          (.ok k, s3)
      match die.attrs.typeRef with
      | none =>
        match enum_compatible_type_fallback s die is_signed with
        | (.error e, s') => (.error e, s')
        | (.ok compatible, s') => finish s' compatible
      | some t =>
        match img.dies t with
        | none =>
          (.error (.other "DW_TAG_enumeration_type has invalid DW_AT_type"),
           s)
        | some _ =>
          match rec s t true with
          | (.error e, s') => (.error e, s')
          | (.ok (v, _), s') =>
            if kindOf s'.heap v.type = some TypeKind.intK then
              finish s' v.type
            else
              (.error (.other
                "DW_AT_type of DW_TAG_enumeration_type is not an integer type"),
               s')
  match isDecl, tagName with
  | true, some n =>
    (match drgn_dwarf_info_cache_find_complete rec img st
        DW_TAG_enumeration_type n with
     | (.ok k, st') => (.ok k, st')
     | (.error e, st') =>
       if e = .stop then
         let (k, st2) := st'.alloc (.incompleteEnumT tagName)
         (.ok k, st2)
       else (.error e, st'))
  | true, none =>
    let (k, st') := st.alloc (.incompleteEnumT tagName)
    (.ok k, st')
  | false, _ => completePath st

/-- `drgn_typedef_type_from_dwarf`: requires a name; resolves `DW_AT_type`
(absent means void) forwarding both `can_be_incomplete_array` and the
out-parameter write of the child, and wraps the result in a typedef
descriptor.  The second component is the forwarded out-parameter write. -/
def drgn_typedef_type_from_dwarf (rec : Resolver) (img : Image) (st : State)
    (die : Die) (canInc : Bool) :
    (Except DErr (TypeHandle × Option Bool)) × State :=
  match die.attrs.nameA with
  | none =>
    (.error (.other "DW_TAG_typedef has missing or invalid DW_AT_name"), st)
  | some nm =>
    match drgn_type_from_dwarf_child rec img st die "DW_TAG_typedef" true
        canInc with
    | (.error e, st') => (.error e, st')
    | (.ok (v, wr), st') =>
      let (k, st2) := st'.alloc (.typedefT nm v)
      (.ok (k, wr), st2)

/-- `drgn_pointer_type_from_dwarf`: referenced type via `DW_AT_type`
(absent means void, incomplete arrays allowed), size from
`DW_AT_byte_size` or the program word size. -/
def drgn_pointer_type_from_dwarf (rec : Resolver) (img : Image) (st : State)
    (die : Die) : (Except DErr TypeHandle) × State :=
  match drgn_type_from_dwarf_child rec img st die "DW_TAG_pointer_type" true
      true with
  | (.error e, st') => (.error e, st')
  | (.ok (v, _), st') =>
    let size := die.attrs.byteSize.getD img.wordSize
    let (k, st2) := st'.alloc (.pointerT v size)
    (.ok k, st2)

/-- The subrange-collecting loop of `drgn_array_type_from_dwarf`. -/
def collectDims : List Die → Except DErr (List Dimension)
  | [] => .ok []
  | c :: rest =>
    if c.tag = DW_TAG_subrange_type then
      match subrange_length c with
      | .error e => .error e
      | .ok d =>
        match collectDims rest with
        | .error e => .error e
        | .ok ds => .ok (d :: ds)
    else collectDims rest

/-- The dimension-folding loop of `drgn_array_type_from_dwarf`, applied to
the innermost-first (reversed) dimension list.  A complete dimension makes
an array of its length; an incomplete one makes a zero-length array unless
it is the outermost dimension and the caller allowed incomplete arrays. -/
def buildArrayTypes (canInc : Bool) :
    State → QualType → List Dimension → TypeHandle × State
  | st, qt, [] => (qt.type, st)
  | st, qt, d :: rest =>
    let ks :=
      if d.is_complete then st.alloc (.arrayT qt d.length)
      else if decide (rest ≠ []) || !canInc then st.alloc (.arrayT qt 0)
      else st.alloc (.incompleteArrayT qt)
    match rest with
    | [] => ks
    | _ :: _ => buildArrayTypes canInc ks.2 ⟨ks.1, 0⟩ rest

/-- `drgn_array_type_from_dwarf`: collect the subrange children (one
synthetic incomplete dimension if none), resolve the element type
(`can_be_void = false`, `can_be_incomplete_array = false`), report
`is_incomplete_array_ret = !dimensions[0].is_complete`, and fold the
dimensions innermost to outermost.  The second component of the result is
the value written through `is_incomplete_array_ret`. -/
def drgn_array_type_from_dwarf (rec : Resolver) (img : Image) (st : State)
    (die : Die) (canInc : Bool) :
    (Except DErr (TypeHandle × Bool)) × State :=
  match collectDims die.children with
  | .error e => (.error e, st)
  | .ok dims0 =>
    let dims := if dims0.isEmpty then [⟨0, false⟩] else dims0
    match drgn_type_from_dwarf_child rec img st die "DW_TAG_array_type" false
        false with
    | (.error e, st') => (.error e, st')
    | (.ok (element_type, _), st') =>
      let inc := !(dims.headI.is_complete)
      let (k, st2) := buildArrayTypes canInc st' element_type dims.reverse
      (.ok (k, inc), st2)

/-- `parse_formal_parameter`: optional name plus a lazy type for
`DW_AT_type` with `can_be_incomplete_array = true`. -/
def parse_formal_parameter (img : Image) (die : Die) : Except DErr Param :=
  match drgn_lazy_type_from_dwarf img die true "DW_TAG_formal_parameter" with
  | .error e => .error e
  | .ok lt => .ok ⟨die.attrs.nameA, lt⟩

/-- The child loop of `drgn_function_type_from_dwarf`:
`DW_TAG_formal_parameter` children append parameters (an error after
`DW_TAG_unspecified_parameters`), `DW_TAG_unspecified_parameters` sets the
variadic flag (an error if repeated). -/
def processParams (img : Image) :
    List Die → Bool → List Param → Except DErr (List Param × Bool)
  | [], variadic, ps => .ok (ps, variadic)
  | c :: rest, variadic, ps =>
    if c.tag = DW_TAG_formal_parameter then
      if variadic then
        .error (.other
          "has DW_TAG_formal_parameter child after DW_TAG_unspecified_parameters child")
      else
        match parse_formal_parameter img c with
        | .error e => .error e
        | .ok p => processParams img rest variadic (ps ++ [p])
    else if c.tag = DW_TAG_unspecified_parameters then
      if variadic then
        .error
          (.other "has multiple DW_TAG_unspecified_parameters children")
      else processParams img rest true ps
    else processParams img rest variadic ps

/-- `drgn_function_type_from_dwarf`: parameters and variadic flag from the
children, then the return type via `DW_AT_type` (absent means void,
incomplete arrays allowed). -/
def drgn_function_type_from_dwarf (rec : Resolver) (img : Image) (st : State)
    (die : Die) : (Except DErr TypeHandle) × State :=
  match processParams img die.children false [] with
  | .error e => (.error e, st)
  | .ok (params, variadic) =>
    match drgn_type_from_dwarf_child rec img st die "DW_TAG_subroutine_type"
        true true with
    | (.error e, st') => (.error e, st')
    | (.ok (return_type, _), st') =>
      let (k, st2) := st'.alloc (.functionT return_type params variadic)
      (.ok k, st2)

/-- Classification of the DWARF tags handled by the dispatch switch of
`drgn_type_from_dwarf_internal`. -/
inductive TagClass where
  | qualifier (bit : Nat) (nm : String)
  | base
  | compound (kind : CompKind)
  | enumeration
  | typedefC
  | pointer
  | array
  | function
  | unknown
deriving DecidableEq, Repr

def tagClass (t : Nat) : TagClass :=
  if t = DW_TAG_const_type then
    .qualifier DRGN_QUALIFIER_CONST "DW_TAG_const_type"
  else if t = DW_TAG_restrict_type then
    .qualifier DRGN_QUALIFIER_RESTRICT "DW_TAG_restrict_type"
  else if t = DW_TAG_volatile_type then
    .qualifier DRGN_QUALIFIER_VOLATILE "DW_TAG_volatile_type"
  else if t = DW_TAG_atomic_type then
    .qualifier DRGN_QUALIFIER_ATOMIC "DW_TAG_atomic_type"
  else if t = DW_TAG_base_type then .base
  else if t = DW_TAG_structure_type then .compound .structC
  else if t = DW_TAG_union_type then .compound .unionC
  else if t = DW_TAG_class_type then .compound .classC
  else if t = DW_TAG_enumeration_type then .enumeration
  else if t = DW_TAG_typedef then .typedefC
  else if t = DW_TAG_pointer_type then .pointer
  else if t = DW_TAG_array_type then .array
  else if t = DW_TAG_subroutine_type ∨ t = DW_TAG_subprogram then .function
  else .unknown

/-- The tag-dispatch switch of `drgn_type_from_dwarf_internal` (lines
1133-1209).  Qualifier tags recurse into `DW_AT_type` with
`can_be_incomplete_array = true` and a null out-pointer and OR their bit
into the qualifier set; only the typedef and array cases produce a
non-false `is_incomplete_array` (the second component, which becomes the
frame's `entry.value.is_incomplete_array`). -/
def dispatchTag (rec : Resolver) (img : Image) (st : State) (die : Die)
    (canInc : Bool) : (Except DErr (QualType × Bool)) × State :=
  match tagClass die.tag with
  | .qualifier bit nm =>
    (match drgn_type_from_dwarf_child rec img st die nm true true with
     | (.error e, st') => (.error e, st')
     | (.ok (v, _), st') => (.ok (⟨v.type, Nat.lor v.quals bit⟩, false), st'))
  | .base =>
    (match drgn_base_type_from_dwarf rec img st die with
     | (.error e, st') => (.error e, st')
     | (.ok k, st') => (.ok (⟨k, 0⟩, false), st'))
  | .compound kind =>
    (match drgn_compound_type_from_dwarf rec img st die kind with
     | (.error e, st') => (.error e, st')
     | (.ok k, st') => (.ok (⟨k, 0⟩, false), st'))
  | .enumeration =>
    (match drgn_enum_type_from_dwarf rec img st die with
     | (.error e, st') => (.error e, st')
     | (.ok k, st') => (.ok (⟨k, 0⟩, false), st'))
  | .typedefC =>
    (match drgn_typedef_type_from_dwarf rec img st die canInc with
     | (.error e, st') => (.error e, st')
     | (.ok (k, wr), st') => (.ok (⟨k, 0⟩, wr.getD false), st'))
  | .pointer =>
    (match drgn_pointer_type_from_dwarf rec img st die with
     | (.error e, st') => (.error e, st')
     | (.ok k, st') => (.ok (⟨k, 0⟩, false), st'))
  | .array =>
    (match drgn_array_type_from_dwarf rec img st die canInc with
     | (.error e, st') => (.error e, st')
     | (.ok (k, b), st') => (.ok (⟨k, 0⟩, b), st'))
  | .function =>
    (match drgn_function_type_from_dwarf rec img st die with
     | (.error e, st') => (.error e, st')
     | (.ok k, st') => (.ok (⟨k, 0⟩, false), st'))
  | .unknown => (.error (.other "unknown DWARF type tag"), st)

/-- The memo-miss path of `drgn_type_from_dwarf_internal`: look the DIE up,
bump the depth, dispatch on the tag, restore the depth, and on success
insert the entry into the restricted map when
`!can_be_incomplete_array && is_incomplete_array`, into the primary map
otherwise, writing the `is_incomplete_array` flag through the
out-parameter. -/
def resolveMissPath (rec : Resolver) (img : Image) (st : State) (a : Addr)
    (canInc : Bool) : RRes :=
  match img.dies a with
  | none => (.error (.other "invalid DIE reference"), st)
  | some die =>
    let st1 : State := { st with depth := st.depth + 1 }
    match dispatchTag rec img st1 die canInc with
    | (.error e, st2) => (.error e, { st2 with depth := st2.depth - 1 })
    | (.ok (qt, inc), st2) =>
      let st3 : State := { st2 with depth := st2.depth - 1 }
      let entry : MapEntry := ⟨qt.type, qt.quals, inc⟩
      let st4 : State :=
        if !canInc && inc then
          { st3 with cmap := mapInsert st3.cmap a entry }
        else { st3 with map := mapInsert st3.map a entry }
      (.ok (qt, some inc), st4)

/-- `drgn_type_from_dwarf_internal`: the memoization core.  With
depth ≥ 1000 it fails with the recursion error before anything else.  A
primary-map hit answers directly unless the caller disallowed incomplete
arrays and the hit is one, in which case the restricted map is consulted
and a miss there re-materializes (memo hits return without writing the
out-parameter).  The extra `Nat` argument is fuel making the recursion
structural. -/
def drgn_type_from_dwarf_internal :
    Nat → Image → State → Addr → Bool → RRes
  | 0, _, st, _, _ => (.error .outOfFuel, st)
  | fuel + 1, img, st, a, canInc =>
    if 1000 ≤ st.depth then (.error .recursion, st)
    else
      let hit : Option MapEntry :=
        match st.map a with
        | some e => if !canInc && e.inc then st.cmap a else some e
        | none => none
      match hit with
      | some e => (.ok (⟨e.type, e.quals⟩, none), st)
      | none =>
        resolveMissPath (drgn_type_from_dwarf_internal fuel img) img st a
          canInc

/-- The fuel bound sufficient for any call tree admitted by the 1000-deep
recursion guard. -/
def topFuel : Nat := 1001

/-- `resolve(D, can_be_incomplete_array)` of the specification:
`drgn_type_from_dwarf_internal` with enough fuel that exhaustion can only
come from the depth guard itself. -/
def resolveTop (img : Image) (st : State) (a : Addr) (canInc : Bool) : RRes :=
  drgn_type_from_dwarf_internal topFuel img st a canInc

/-- Modelled from the spec: `drgn_enum_type_is_signed` of the external type
layer: whether the enum's compatible integer type is signed. -/
def enumIsSigned (h : Heap) (k : TypeHandle) : Bool :=
  match h.at' k with
  | some (.enumT _ comp _) =>
    (match h.at' comp with
     | some (.intT _ _ s) => s
     | _ => false)
  | _ => false

/-- The outcome of `drgn_object_from_dwarf_enumerator`: a signed or
unsigned constant object, an error, or the `UNREACHABLE()` at the end of
the enumerator scan (program abort; no `drgn_error` is produced). -/
inductive ObjOutcome where
  | okSigned (qt : QualType) (v : Int)
  | okUnsigned (qt : QualType) (v : Nat)
  | err (e : DErr)
  | unreachableHit
deriving DecidableEq, Repr

/-- `drgn_object_from_dwarf_enumerator`: materialize the parent enumeration
DIE, scan its enumerators for `nm`, and build a signed or unsigned value
according to the enum's signedness; if no enumerator matches, control
reaches `UNREACHABLE()`. -/
def drgn_object_from_dwarf_enumerator (rec : Resolver) (st : State)
    (a : Addr) (nm : String) : ObjOutcome × State :=
  match rec st a true with
  | (.error e, st') => (.err e, st')
  | (.ok (v, _), st') =>
    let items : List EnumItem :=
      match st'.heap.at' v.type with
      | some (.enumT _ _ es) => es
      | _ => []
    match items.find? (fun it => it.nameA = nm) with
    | some it =>
      if enumIsSigned st'.heap v.type then
        (.okSigned v (toSigned64 it.word), st')
      else (.okUnsigned v (it.word % w64), st')
    | none => (.unreachableHit, st')

end Drgn

namespace Drgn

/-! ## Claim C7: `subrange_length` on `DW_AT_upper_bound` -/

/-- A subrange DIE with a given `DW_AT_upper_bound` attribute and no
`DW_AT_count`. -/
def subrangeDieUB (a : NumAttr) : Die :=
  .mk DW_TAG_subrange_type { upperBound := some a } []

/-- C7: for a subrange DIE carrying `DW_AT_upper_bound` with value `n`
(a 64-bit word): the signed sdata value -1 decodes as a complete dimension
of length 0; otherwise the dimension is complete with length `n + 1`, and
the decode fails with the overflow error exactly when `n ≥ UINT64_MAX`
(which for a 64-bit word means `n = UINT64_MAX`), so `n = UINT64_MAX - 1`
yields length `UINT64_MAX` and the next higher value fails. -/
theorem subrange_length_upper_bound_spec (die : Die) (form : AForm) (n : Nat)
    (hub : die.attrs.upperBound = some ⟨form, n⟩) (hn : n < w64) :
    ((form = AForm.sdata ∧ n = w64 - 1) →
      subrange_length die = .ok ⟨0, true⟩) ∧
    (¬(form = AForm.sdata ∧ n = w64 - 1) →
      (n = w64 - 1 → subrange_length die = .error .overflow) ∧
      (n < w64 - 1 → subrange_length die = .ok ⟨n + 1, true⟩)) := by
  have key : subrange_length die =
      if form = AForm.sdata ∧ n = w64 - 1 then .ok ⟨0, true⟩
      else if w64 - 1 ≤ n then .error .overflow
      else .ok ⟨n + 1, true⟩ := by
    unfold subrange_length
    rw [hub]
    rcases h2 : die.attrs.countA with _ | c <;> simp
  constructor
  · rintro ⟨hf, hv⟩
    rw [key, if_pos ⟨hf, hv⟩]
  · intro hnot
    refine ⟨fun hv => ?_, fun hv => ?_⟩
    · rw [key, if_neg hnot, if_pos (le_of_eq hv.symm)]
    · rw [key, if_neg hnot, if_neg (by omega)]

/-- Witness for C7 at the boundary values named by the claim: an sdata
upper bound of -1 gives length 0; `UINT64_MAX - 1` gives length
`UINT64_MAX`; `UINT64_MAX` (as a non-sdata word) overflows. -/
theorem subrange_length_upper_bound_witness :
    subrange_length (subrangeDieUB ⟨AForm.sdata, w64 - 1⟩) = .ok ⟨0, true⟩ ∧
    subrange_length (subrangeDieUB ⟨AForm.udata, w64 - 2⟩) =
      .ok ⟨w64 - 1, true⟩ ∧
    subrange_length (subrangeDieUB ⟨AForm.udata, w64 - 1⟩) =
      .error .overflow := by
  refine ⟨?_, ?_, ?_⟩
  · exact (subrange_length_upper_bound_spec
      (subrangeDieUB ⟨AForm.sdata, w64 - 1⟩) AForm.sdata (w64 - 1) rfl
      (by norm_num [w64])).1 ⟨rfl, rfl⟩
  · have h := ((subrange_length_upper_bound_spec
      (subrangeDieUB ⟨AForm.udata, w64 - 2⟩) AForm.udata (w64 - 2) rfl
      (by norm_num [w64])).2 (by simp)).2 (by norm_num [w64])
    have e : w64 - 2 + 1 = w64 - 1 := by norm_num [w64]
    rw [e] at h
    exact h
  · exact ((subrange_length_upper_bound_spec
      (subrangeDieUB ⟨AForm.udata, w64 - 1⟩) AForm.udata (w64 - 1) rfl
      (by norm_num [w64])).2 (by simp)).1 rfl

/-! ## The static eager-call graph and the cache-state invariants

`drgn_type_from_dwarf_internal` recurses eagerly along a set of attribute
links that is determined by the DIE graph and the name index alone: the
`DW_AT_type` of qualifiers, typedefs, pointers, array elements, function
return types, complex base types and enum compatible types; the unique
index hit of a named declaration; and the member types whose bit-field
offsets force thunk evaluation.  `eagerTargets` computes this set; a DIE on
a cycle of this graph can never be materialized (the recursion depth guard
fires first), which is the invariant behind "errors never poison the
cache". -/

/-- The `DW_AT_type` target of a DIE as a (zero- or one-element) list. -/
def childTarget (die : Die) : List Addr := die.attrs.typeRef.toList

/-- Whether `parse_member_offset` will evaluate the member's lazy type:
legacy `DW_AT_bit_offset` encoding on a little-endian image with neither
`DW_AT_data_bit_offset` nor an explicit `DW_AT_byte_size`. -/
def memberNeedsEval (img : Image) (m : Die) : Bool :=
  m.attrs.dataBitOffset.isNone && m.attrs.bitOffset.isSome &&
    img.littleEndian && m.attrs.byteSize.isNone

/-- The member-type DIEs that compound materialization resolves eagerly. -/
def memberEvalTargets (img : Image) : List Die → List Addr
  | [] => []
  | m :: rest =>
    (if memberNeedsEval img m then m.attrs.typeRef.toList else []) ++
      memberEvalTargets img rest

/-- The DIE that `drgn_dwarf_info_cache_find_complete` will materialize for
a named declaration: the unique index hit, if there is exactly one. -/
def declTargets (img : Image) (dwTag : Nat) (nm : Option String) :
    List Addr :=
  match nm with
  | none => []
  | some n =>
    match img.index dwTag n with
    | [d] => [d]
    | _ => []

/-- All DIE addresses on which a dispatch of `die` calls
`drgn_type_from_dwarf_internal` eagerly (and, if the dispatch succeeds,
successfully). -/
def eagerTargets (img : Image) (die : Die) : List Addr :=
  match tagClass die.tag with
  | .qualifier _ _ => childTarget die
  | .base =>
    if die.attrs.encoding = some DW_ATE_complex_float then childTarget die
    else []
  | .compound kind =>
    if die.attrs.declFlag then declTargets img kind.toTag die.attrs.nameA
    else memberEvalTargets img (memberChildren die)
  | .enumeration =>
    if die.attrs.declFlag then
      declTargets img DW_TAG_enumeration_type die.attrs.nameA
    else childTarget die
  | .typedefC => childTarget die
  | .pointer => childTarget die
  | .array => childTarget die
  | .function => childTarget die
  | .unknown => []

/-- One edge of the static eager-call graph. -/
def EdgeR (img : Image) (x y : Addr) : Prop :=
  ∃ d, img.dies x = some d ∧ y ∈ eagerTargets img d

/-- A DIE address on a cycle of the eager-call graph. -/
def BadK (img : Image) (k : Addr) : Prop := Relation.TransGen (EdgeR img) k k

/-- A cache state in which no cyclic DIE is memoized.  This holds of the
empty cache and is preserved by every call (`RecOK`), because a cyclic DIE
can only fail to materialize. -/
def BadFree (img : Image) (st : State) : Prop :=
  ∀ k, BadK img k → st.map k = none ∧ st.cmap k = none

/-- Both memoization maps agree at `k` between two states. -/
def SlotsAgree (st st' : State) (k : Addr) : Prop :=
  st'.map k = st.map k ∧ st'.cmap k = st.cmap k

theorem slotsAgree_refl (st : State) (k : Addr) : SlotsAgree st st k :=
  ⟨rfl, rfl⟩

theorem slotsAgree_trans {st₁ st₂ st₃ : State} {k : Addr}
    (h₁ : SlotsAgree st₁ st₂ k) (h₂ : SlotsAgree st₂ st₃ k) :
    SlotsAgree st₁ st₃ k :=
  ⟨h₂.1.trans h₁.1, h₂.2.trans h₁.2⟩

/-- `k` is not reachable (reflexively-transitively) from any address in
`E` along the eager-call graph. -/
def Avoids (img : Image) (E : List Addr) (k : Addr) : Prop :=
  ∀ a, a ∈ E → ¬ Relation.ReflTransGen (EdgeR img) a k

theorem avoids_nil (img : Image) (k : Addr) : Avoids img [] k := by
  intro a ha
  cases ha

theorem avoids_append_left {img : Image} {E₁ E₂ : List Addr} {k : Addr}
    (h : Avoids img (E₁ ++ E₂) k) : Avoids img E₁ k := fun a ha =>
  h a (List.mem_append_left _ ha)

theorem avoids_append_right {img : Image} {E₁ E₂ : List Addr} {k : Addr}
    (h : Avoids img (E₁ ++ E₂) k) : Avoids img E₂ k := fun a ha =>
  h a (List.mem_append_right _ ha)

/-- What one call-shaped step guarantees: depth restored, the no-cycles
invariant preserved, slots untouched away from the call's reach, and — on
success — no called target lies on a cycle. -/
def HSpec (img : Image) (E : List Addr) (st st' : State) (succ : Prop) :
    Prop :=
  st'.depth = st.depth ∧ BadFree img st' ∧
  (∀ k, Avoids img E k → SlotsAgree st st' k) ∧
  (succ → ∀ a, a ∈ E → ¬ BadK img a)

theorem hspec_of_eq {img : Image} {E : List Addr} {st st' : State}
    {succ : Prop} (hbf : BadFree img st) (heq : st' = st)
    (hdepth : st'.depth = st.depth)
    (hsucc : succ → ∀ a, a ∈ E → ¬ BadK img a) :
    HSpec img E st st' succ := by
  subst heq
  exact ⟨hdepth, hbf, fun k _ => slotsAgree_refl _ k, hsucc⟩

/-- A step that only allocates in the heap satisfies any `HSpec` whose
success condition needs no targets. -/
theorem hspec_heapOnly {img : Image} {st : State} {h : Heap} {succ : Prop}
    (hbf : BadFree img st) :
    HSpec img [] st { st with heap := h } succ := by
  refine ⟨rfl, ?_, fun k _ => ⟨rfl, rfl⟩, fun _ a ha => absurd ha (by simp)⟩
  intro k hk
  exact hbf k hk

/-- What one call to the memoization core guarantees: depth restored, the
no-cycles invariant preserved, success only off-cycle, slots untouched
outside the call's reach (and, on error, even the call's own slot), and no
`DRGN_ERROR_STOP` result. -/
abbrev RecOKAt (img : Image) (st : State) (a : Addr)
    (r : Except DErr (QualType × Option Bool)) (st' : State) : Prop :=
  st'.depth = st.depth ∧
  BadFree img st' ∧
  ((∃ v, r = .ok v) → ¬ BadK img a) ∧
  (∀ k, ¬ Relation.TransGen (EdgeR img) a k →
    (k ≠ a ∨ ∃ e, r = .error e) → SlotsAgree st st' k) ∧
  (∀ e, r = .error e → e ≠ .stop)

/-- The property the big fuel induction establishes of
`drgn_type_from_dwarf_internal fuel img` and that the per-dispatcher
lemmas assume of the recursive entry point. -/
def RecOK (img : Image) (rec : Resolver) : Prop :=
  ∀ st a c r st', BadFree img st → rec st a c = (r, st') →
    RecOKAt img st a r st'

/-- A `RecOK` call satisfies the `HSpec` with the single target it was
called on. -/
theorem recOK_call_hspec {img : Image} {rec : Resolver}
    (hrec : RecOK img rec) {st : State} {a : Addr} {c : Bool}
    {r : Except DErr (QualType × Option Bool)} {st' : State}
    (hbf : BadFree img st) (hcall : rec st a c = (r, st')) :
    HSpec img [a] st st' (∃ v, r = .ok v) := by
  obtain ⟨hd, hbf', hok, hslots, _⟩ := hrec st a c r st' hbf hcall
  refine ⟨hd, hbf', ?_, ?_⟩
  · intro k hk
    have hne := hk a (by simp)
    have hka : k ≠ a := by
      intro he
      exact hne (he ▸ Relation.ReflTransGen.refl)
    have hnt : ¬ Relation.TransGen (EdgeR img) a k := fun ht =>
      hne ht.to_reflTransGen
    exact hslots k hnt (Or.inl hka)
  · rintro ⟨v, hv⟩ b hb
    have : b = a := by simpa using hb
    subst this
    exact hok ⟨v, hv⟩

theorem pair_eq_inv {α β : Type} {x r : α} {y s : β} (h : (x, y) = (r, s)) :
    r = x ∧ s = y := by
  simp only [Prod.mk.injEq] at h
  exact ⟨h.1.symm, h.2.symm⟩

/-- `drgn_type_from_dwarf_child` satisfies the call specification on the
`DW_AT_type` target. -/
theorem child_hspec {img : Image} {rec : Resolver} {st : State} {die : Die}
    {nm : String} {cv ci : Bool} {r : Except DErr (QualType × Option Bool)}
    {st' : State} (hrec : RecOK img rec) (hbf : BadFree img st)
    (h : drgn_type_from_dwarf_child rec img st die nm cv ci = (r, st')) :
    HSpec img (childTarget die) st st' (∃ v, r = .ok v) ∧
    (∀ e, r = .error e → e ≠ .stop) := by
  rcases htr : die.attrs.typeRef with _ | t
  · simp only [drgn_type_from_dwarf_child, htr] at h
    have hct : childTarget die = [] := by simp [childTarget, htr]
    rw [hct]
    split at h <;> obtain ⟨rfl, rfl⟩ := pair_eq_inv h
    · exact ⟨hspec_of_eq hbf rfl rfl
        (fun _ a ha => absurd ha (List.not_mem_nil a)),
        fun e he => by simp at he⟩
    · refine ⟨hspec_of_eq hbf rfl rfl
        (fun _ a ha => absurd ha (List.not_mem_nil a)), fun e he => ?_⟩
      injection he with h2
      rw [← h2]
      intro hc
      cases hc
  · simp only [drgn_type_from_dwarf_child, htr] at h
    have hct : childTarget die = [t] := by simp [childTarget, htr]
    rw [hct]
    rcases hdies : img.dies t with _ | d <;> simp only [hdies] at h
    · obtain ⟨rfl, rfl⟩ := pair_eq_inv h
      refine ⟨⟨rfl, hbf, fun k _ => slotsAgree_refl _ k, ?_⟩, fun e he => ?_⟩
      · rintro ⟨v, hv⟩
        simp at hv
      · injection he with h2
        rw [← h2]
        intro hc
        cases hc
    · exact ⟨recOK_call_hspec hrec hbf h,
        fun e he => (hrec st t ci r st' hbf h).2.2.2.2 e he⟩

/-- The identity step satisfies any target list with an unsatisfiable
success condition. -/
theorem hspec_rfl {img : Image} (E : List Addr) {st : State}
    (hbf : BadFree img st) : HSpec img E st st False :=
  ⟨rfl, hbf, fun k _ => slotsAgree_refl st k, fun f => f.elim⟩

/-- With no targets, the success condition of a call-shaped step is
interchangeable. -/
theorem hspec_nil_succ {img : Image} {st st' : State} {s : Prop}
    (h : HSpec img [] st st' s) (s' : Prop) : HSpec img [] st st' s' :=
  ⟨h.1, h.2.1, h.2.2.1, fun _ a ha => absurd ha (List.not_mem_nil a)⟩

/-- Sequential composition of two call-shaped steps. -/
theorem hspec_trans {img : Image} {E₁ E₂ : List Addr} {st st₁ st₂ : State}
    {s₁ s₂ s : Prop} (h₁ : HSpec img E₁ st st₁ s₁)
    (h₂ : HSpec img E₂ st₁ st₂ s₂) (hs₁ : s → s₁) (hs₂ : s → s₂) :
    HSpec img (E₁ ++ E₂) st st₂ s := by
  refine ⟨h₂.1.trans h₁.1, h₂.2.1, ?_, ?_⟩
  · intro k hk
    exact slotsAgree_trans
      (h₁.2.2.1 k (avoids_append_left hk))
      (h₂.2.2.1 k (avoids_append_right hk))
  · intro hs a ha
    rcases List.mem_append.mp ha with h | h
    · exact h₁.2.2.2 (hs₁ hs) a h
    · exact h₂.2.2.2 (hs₂ hs) a h

/-- Weaken the success condition of a call-shaped step. -/
theorem hspec_weaken {img : Image} {E : List Addr} {st st' : State}
    {s s' : Prop} (h : HSpec img E st st' s) (hs : s' → s) :
    HSpec img E st st' s' :=
  ⟨h.1, h.2.1, h.2.2.1, fun hx => h.2.2.2 (hs hx)⟩

/-- Change the target list of a call-shaped step to an equal one. -/
theorem hspec_congr {img : Image} {E E' : List Addr} {st st' : State}
    {s : Prop} (h : HSpec img E st st' s) (he : E' = E) :
    HSpec img E' st st' s := he ▸ h

/-- A heap-only allocation appended after a call-shaped step. -/
theorem hspec_alloc_after {img : Image} {E : List Addr} {st st₁ st' : State}
    {s s' : Prop} (h : HSpec img E st st₁ s) (hp : Heap)
    (heq : st' = { st₁ with heap := hp }) (hs : s' → s) :
    HSpec img E st st' s' := by
  subst heq
  refine ⟨h.1, ?_, fun k hk => ?_, fun hx => h.2.2.2 (hs hx)⟩
  · intro k hk
    exact h.2.1 k hk
  · exact slotsAgree_trans (h.2.2.1 k hk) ⟨rfl, rfl⟩

/-- A result that, if an error, is not the `DRGN_ERROR_STOP` sentinel. -/
def NoStopRes {β : Type} (r : Except DErr β) : Prop :=
  ∀ e, r = .error e → e ≠ .stop

theorem noStopRes_ok {β : Type} (v : β) :
    NoStopRes (Except.ok v : Except DErr β) := fun e he => by simp at he

theorem noStopRes_other {β : Type} (m : String) :
    NoStopRes (Except.error (DErr.other m) : Except DErr β) := by
  intro e he
  injection he with h2
  rw [← h2]
  intro hc
  cases hc

theorem noStopRes_overflow {β : Type} :
    NoStopRes (Except.error DErr.overflow : Except DErr β) := by
  intro e he
  injection he with h2
  rw [← h2]
  intro hc
  cases hc

/-- `drgn_base_type_from_dwarf` satisfies the call specification; its only
eager target is the `DW_AT_type` of a complex encoding. -/
theorem base_hspec {img : Image} {rec : Resolver} {st : State} {die : Die}
    {r : Except DErr TypeHandle} {st' : State} (hrec : RecOK img rec)
    (hbf : BadFree img st)
    (h : drgn_base_type_from_dwarf rec img st die = (r, st')) :
    HSpec img
      (if die.attrs.encoding = some DW_ATE_complex_float then
        childTarget die else [])
      st st' (∃ k, r = .ok k) ∧ NoStopRes r := by
  rcases hnm : die.attrs.nameA with _ | nm
  · simp only [drgn_base_type_from_dwarf, hnm] at h
    obtain ⟨rfl, rfl⟩ := pair_eq_inv h
    exact ⟨hspec_of_eq hbf rfl rfl (fun hx _ _ => absurd hx (by simp)),
      noStopRes_other _⟩
  rcases henc : die.attrs.encoding with _ | enc
  · simp only [drgn_base_type_from_dwarf, hnm, henc] at h
    obtain ⟨rfl, rfl⟩ := pair_eq_inv h
    exact ⟨hspec_of_eq hbf rfl rfl (fun hx _ _ => absurd hx (by simp)),
      noStopRes_other _⟩
  rcases hbs : die.attrs.byteSize with _ | size
  · simp only [drgn_base_type_from_dwarf, hnm, henc, hbs] at h
    obtain ⟨rfl, rfl⟩ := pair_eq_inv h
    exact ⟨hspec_of_eq hbf rfl rfl (fun hx _ _ => absurd hx (by simp)),
      noStopRes_other _⟩
  simp only [drgn_base_type_from_dwarf, hnm, henc, hbs] at h
  have hEnot : enc ≠ DW_ATE_complex_float →
      (if (some enc : Option Nat) = some DW_ATE_complex_float then
        childTarget die else []) = [] := by
    intro hne
    rw [if_neg]
    simp [hne]
  by_cases h1 : enc = DW_ATE_boolean
  · rw [if_pos h1] at h
    obtain ⟨rfl, rfl⟩ := pair_eq_inv h
    refine ⟨hspec_congr (hspec_heapOnly hbf) (hEnot (by rw [h1]; decide)),
      noStopRes_ok _⟩
  rw [if_neg h1] at h
  by_cases h2 : enc = DW_ATE_float
  · rw [if_pos h2] at h
    obtain ⟨rfl, rfl⟩ := pair_eq_inv h
    exact ⟨hspec_congr (hspec_heapOnly hbf) (hEnot (by rw [h2]; decide)),
      noStopRes_ok _⟩
  rw [if_neg h2] at h
  by_cases h3 : enc = DW_ATE_signed ∨ enc = DW_ATE_signed_char
  · rw [if_pos h3] at h
    obtain ⟨rfl, rfl⟩ := pair_eq_inv h
    refine ⟨hspec_congr (hspec_heapOnly hbf) (hEnot ?_), noStopRes_ok _⟩
    rcases h3 with h3 | h3 <;> (rw [h3]; decide)
  rw [if_neg h3] at h
  by_cases h4 : enc = DW_ATE_unsigned ∨ enc = DW_ATE_unsigned_char
  · rw [if_pos h4] at h
    obtain ⟨rfl, rfl⟩ := pair_eq_inv h
    refine ⟨hspec_congr (hspec_heapOnly hbf) (hEnot ?_), noStopRes_ok _⟩
    rcases h4 with h4 | h4 <;> (rw [h4]; decide)
  rw [if_neg h4] at h
  by_cases h5 : enc = DW_ATE_complex_float
  · rw [if_pos h5] at h
    have hEyes :
        (if (some enc : Option Nat) = some DW_ATE_complex_float then
          childTarget die else []) = childTarget die := by
      rw [if_pos]
      rw [h5]
    rw [hEyes]
    rcases htr : die.attrs.typeRef with _ | t
    · simp only [htr] at h
      obtain ⟨rfl, rfl⟩ := pair_eq_inv h
      have hct : childTarget die = [] := by simp [childTarget, htr]
      rw [hct]
      exact ⟨hspec_of_eq hbf rfl rfl (fun hx _ _ => absurd hx (by simp)),
        noStopRes_other _⟩
    simp only [htr] at h
    have hct : childTarget die = [t] := by simp [childTarget, htr]
    rw [hct]
    rcases hdies : img.dies t with _ | d <;> simp only [hdies] at h
    · obtain ⟨rfl, rfl⟩ := pair_eq_inv h
      refine ⟨⟨rfl, hbf, fun k _ => slotsAgree_refl _ k, ?_⟩,
        noStopRes_other _⟩
      rintro ⟨k, hk⟩
      simp at hk
    rcases hcall : rec st t true with ⟨cr, st₁⟩
    rw [hcall] at h
    have hcs := recOK_call_hspec hrec hbf hcall
    have hnost := (hrec st t true cr st₁ hbf hcall).2.2.2.2
    rcases cr with e | v
    · obtain ⟨rfl, rfl⟩ := pair_eq_inv h
      refine ⟨hspec_weaken hcs (fun hx => absurd hx (by simp)),
        fun e' he' => hnost e' ?_⟩
      injection he' with h2
      rw [h2]
    simp only at h
    split at h <;> obtain ⟨rfl, rfl⟩ := pair_eq_inv h
    · refine ⟨hspec_alloc_after hcs _ rfl (fun _ => ⟨_, rfl⟩),
        noStopRes_ok _⟩
    · exact ⟨hspec_weaken hcs (fun hx => absurd hx (by simp)),
        noStopRes_other _⟩
  rw [if_neg h5] at h
  obtain ⟨rfl, rfl⟩ := pair_eq_inv h
  exact ⟨hspec_congr (hspec_of_eq hbf rfl rfl
      (fun hx _ _ => absurd hx (by simp))) (hEnot h5),
    noStopRes_other _⟩

theorem noStopRes_error {β : Type} {e : DErr} (h : e ≠ .stop) :
    NoStopRes (Except.error e : Except DErr β) := by
  intro e' he'
  injection he' with h2
  rw [← h2]
  exact h

theorem ne_stop_of_noStopRes {β : Type} {e : DErr}
    (h : NoStopRes (Except.error e : Except DErr β)) : e ≠ .stop :=
  h e rfl

/-- `drgn_dwarf_info_cache_find_complete` satisfies the call specification
on the unique index hit; a `DRGN_ERROR_STOP` result implies there was no
unique hit (the memoization core never produces the sentinel itself). -/
theorem find_complete_hspec {img : Image} {rec : Resolver} {st : State}
    {dwTag : Nat} {n : String} {r : Except DErr TypeHandle} {st' : State}
    (hrec : RecOK img rec) (hbf : BadFree img st)
    (h : drgn_dwarf_info_cache_find_complete rec img st dwTag n = (r, st')) :
    HSpec img (declTargets img dwTag (some n)) st st' (∃ k, r = .ok k) ∧
    (r = .error .stop → declTargets img dwTag (some n) = []) := by
  unfold drgn_dwarf_info_cache_find_complete at h
  rcases hidx : img.index dwTag n with _ | ⟨d, rest⟩
  · simp only [hidx] at h
    obtain ⟨rfl, rfl⟩ := pair_eq_inv h
    have hdT : declTargets img dwTag (some n) = [] := by
      simp [declTargets, hidx]
    rw [hdT]
    exact ⟨hspec_of_eq hbf rfl rfl (fun hx _ _ => absurd hx (by simp)),
      fun _ => rfl⟩
  rcases rest with _ | ⟨d2, rest2⟩
  · simp only [hidx] at h
    have hdT : declTargets img dwTag (some n) = [d] := by
      simp [declTargets, hidx]
    rw [hdT]
    rcases hcall : rec st d true with ⟨cr, st₁⟩
    rw [hcall] at h
    have hcs := recOK_call_hspec hrec hbf hcall
    rcases cr with e | v
    · obtain ⟨rfl, rfl⟩ := pair_eq_inv h
      refine ⟨hspec_weaken hcs (fun hx => absurd hx (by simp)), fun hx => ?_⟩
      exfalso
      exact (hrec st d true _ _ hbf hcall).2.2.2.2 e rfl (Except.error.inj hx)
    · obtain ⟨rfl, rfl⟩ := pair_eq_inv h
      exact ⟨hspec_weaken hcs (fun _ => ⟨v, rfl⟩), fun hx => by simp at hx⟩
  · simp only [hidx] at h
    obtain ⟨rfl, rfl⟩ := pair_eq_inv h
    have hdT : declTargets img dwTag (some n) = [] := by
      simp [declTargets, hidx]
    rw [hdT]
    exact ⟨hspec_of_eq hbf rfl rfl (fun hx _ _ => absurd hx (by simp)),
      fun _ => rfl⟩

/-- The eager target of one member: its `DW_AT_type`, if offset decoding
will evaluate the member's thunk. -/
def memberTarget (img : Image) (m : Die) : List Addr :=
  if memberNeedsEval img m then m.attrs.typeRef.toList else []

/-- `parse_member_offset` satisfies the call specification: its only eager
target is the member's type DIE, in the little-endian legacy bit-field
branch without an explicit byte size. -/
theorem pmo_hspec {img : Image} {rec : Resolver} {st : State} {m : Die}
    {t : Addr} {ci : Bool} {bfs : Nat} {le : Bool}
    {r : Except DErr (Nat × LazyType)} {st' : State}
    (hrec : RecOK img rec) (hbf : BadFree img st)
    (hle : le = img.littleEndian) (htr : m.attrs.typeRef = some t)
    (h : parse_member_offset rec st m (.thunk t ci) bfs le = (r, st')) :
    HSpec img (memberTarget img m) st st' (∃ x, r = .ok x) ∧ NoStopRes r := by
  subst hle
  unfold parse_member_offset at h
  rcases hdbo : m.attrs.dataBitOffset with _ | wd <;> simp only [hdbo] at h
  case some =>
    obtain ⟨rfl, rfl⟩ := pair_eq_inv h
    have hE : memberTarget img m = [] := by
      simp [memberTarget, memberNeedsEval, hdbo]
    rw [hE]
    exact ⟨hspec_of_eq hbf rfl rfl (fun _ a ha => absurd ha (by simp)),
      noStopRes_ok _⟩
  rcases hbo : m.attrs.bitOffset with _ | bo <;> simp only [hbo] at h
  · obtain ⟨rfl, rfl⟩ := pair_eq_inv h
    have hE : memberTarget img m = [] := by
      simp [memberTarget, memberNeedsEval, hbo]
    rw [hE]
    exact ⟨hspec_of_eq hbf rfl rfl (fun _ a ha => absurd ha (by simp)),
      noStopRes_ok _⟩
  cases hlee : img.littleEndian <;> simp only [hlee] at h
  · obtain ⟨rfl, rfl⟩ := pair_eq_inv h
    have hE : memberTarget img m = [] := by
      simp [memberTarget, memberNeedsEval, hlee]
    rw [hE]
    exact ⟨hspec_of_eq hbf rfl rfl (fun _ a ha => absurd ha (by simp)),
      noStopRes_ok _⟩
  rcases hbs : m.attrs.byteSize with _ | bs <;> simp only [hbs] at h
  case none.some.true.some =>
    obtain ⟨rfl, rfl⟩ := pair_eq_inv h
    have hE : memberTarget img m = [] := by
      simp [memberTarget, memberNeedsEval, hbs]
    rw [hE]
    exact ⟨hspec_of_eq hbf rfl rfl (fun _ a ha => absurd ha (by simp)),
      noStopRes_ok _⟩
  have hE : memberTarget img m = [t] := by
    simp [memberTarget, memberNeedsEval, hdbo, hbo, hlee, hbs, htr]
  rw [hE]
  simp only [drgn_lazy_type_evaluate] at h
  rcases hcall : rec st t ci with ⟨cr, st₁⟩
  rw [hcall] at h
  have hcs := recOK_call_hspec hrec hbf hcall
  have hnost := (hrec st t ci _ _ hbf hcall).2.2.2.2
  rcases cr with e | v
  · obtain ⟨rfl, rfl⟩ := pair_eq_inv h
    exact ⟨hspec_weaken hcs (fun hx => absurd hx (by simp)),
      noStopRes_error (hnost e rfl)⟩
  rcases v with ⟨v, w⟩
  simp only at h
  rcases hts : typeSize st₁.heap v.type with _ | s <;> simp only [hts] at h <;>
    obtain ⟨rfl, rfl⟩ := pair_eq_inv h
  · exact ⟨hspec_weaken hcs (fun hx => absurd hx (by simp)),
      noStopRes_other _⟩
  · exact ⟨hspec_weaken hcs (fun _ => ⟨(v, w), rfl⟩), noStopRes_ok _⟩

/-- `parse_member` satisfies the call specification. -/
theorem parse_member_hspec {img : Image} {rec : Resolver} {st : State}
    {m : Die} {le ci : Bool} {b : List Member}
    {r : Except DErr (List Member)} {st' : State}
    (hrec : RecOK img rec) (hbf : BadFree img st)
    (hle : le = img.littleEndian)
    (h : parse_member rec img st m le ci b = (r, st')) :
    HSpec img (memberTarget img m) st st' (∃ x, r = .ok x) ∧ NoStopRes r := by
  unfold parse_member at h
  rcases htr : m.attrs.typeRef with _ | t
  · simp only [drgn_lazy_type_from_dwarf, htr] at h
    obtain ⟨rfl, rfl⟩ := pair_eq_inv h
    exact ⟨hspec_of_eq hbf rfl rfl (fun hx _ _ => absurd hx (by simp)),
      noStopRes_other _⟩
  rcases hdies : img.dies t with _ | d
  · simp only [drgn_lazy_type_from_dwarf, htr, hdies] at h
    obtain ⟨rfl, rfl⟩ := pair_eq_inv h
    exact ⟨hspec_of_eq hbf rfl rfl (fun hx _ _ => absurd hx (by simp)),
      noStopRes_other _⟩
  simp only [drgn_lazy_type_from_dwarf, htr, hdies] at h
  rcases hpmo : parse_member_offset rec st m (.thunk t ci)
      (m.attrs.bitSize.getD 0) le with ⟨pr, st₁⟩
  rw [hpmo] at h
  have hps := pmo_hspec hrec hbf hle htr hpmo
  rcases pr with e | x
  · obtain ⟨rfl, rfl⟩ := pair_eq_inv h
    exact ⟨hspec_weaken hps.1 (fun hx => absurd hx (by simp)),
      noStopRes_error (ne_stop_of_noStopRes hps.2)⟩
  rcases x with ⟨off, mt'⟩
  simp only at h
  obtain ⟨rfl, rfl⟩ := pair_eq_inv h
  exact ⟨hspec_weaken hps.1 (fun _ => ⟨(off, mt'), rfl⟩), noStopRes_ok _⟩

/-- The member loop of compound materialization satisfies the call
specification on the accumulated member eval targets. -/
theorem processMembers_hspec {img : Image} {rec : Resolver} {le : Bool}
    {kind : CompKind} (hrec : RecOK img rec) (hle : le = img.littleEndian) :
    ∀ (ms : List Die) (b : List Member) (st : State)
      (r : Except DErr (List Member)) (st' : State),
      BadFree img st → processMembers rec img le kind ms b st = (r, st') →
      HSpec img (memberEvalTargets img ms) st st' (∃ x, r = .ok x) ∧
        NoStopRes r := by
  intro ms
  induction ms with
  | nil =>
    intro b st r st' hbf h
    unfold processMembers at h
    obtain ⟨rfl, rfl⟩ := pair_eq_inv h
    exact ⟨hspec_of_eq hbf rfl rfl
      (fun _ a ha => absurd ha (by simp [memberEvalTargets])),
      noStopRes_ok _⟩
  | cons m rest ih =>
    intro b st r st' hbf h
    rcases rest with _ | ⟨m2, rest2⟩
    · unfold processMembers at h
      have hp := parse_member_hspec hrec hbf hle h
      refine ⟨hspec_congr hp.1 ?_, hp.2⟩
      simp [memberEvalTargets, memberTarget]
    · unfold processMembers at h
      rcases hpm : parse_member rec img st m le false b with ⟨pr, st₁⟩
      rw [hpm] at h
      have h1 := parse_member_hspec hrec hbf hle hpm
      have hET : memberEvalTargets img (m :: m2 :: rest2) =
          memberTarget img m ++ memberEvalTargets img (m2 :: rest2) := rfl
      rcases pr with e | b'
      · obtain ⟨rfl, rfl⟩ := pair_eq_inv h
        refine ⟨hspec_congr (hspec_trans h1.1
          (hspec_rfl (memberEvalTargets img (m2 :: rest2)) h1.1.2.1)
          (fun hx => absurd hx (by simp))
          (fun hx => absurd hx (by simp))) hET, noStopRes_error
            (ne_stop_of_noStopRes h1.2)⟩
      · simp only at h
        have h2 := ih b' st₁ r st' h1.1.2.1 h
        exact ⟨hspec_congr (hspec_trans h1.1 h2.1
          (fun _ => ⟨b', rfl⟩) (fun hx => hx)) hET, h2.2⟩

/-- `drgn_compound_type_from_dwarf` satisfies the call specification: a
declaration's eager target is the unique index hit; a complete compound's
eager targets are the member types forced by bit-field offset decoding. -/
theorem compound_hspec {img : Image} {rec : Resolver} {st : State}
    {die : Die} {kind : CompKind} {r : Except DErr TypeHandle} {st' : State}
    (hrec : RecOK img rec) (hbf : BadFree img st)
    (h : drgn_compound_type_from_dwarf rec img st die kind = (r, st')) :
    HSpec img
      (if die.attrs.declFlag then declTargets img kind.toTag die.attrs.nameA
        else memberEvalTargets img (memberChildren die))
      st st' (∃ k, r = .ok k) ∧ NoStopRes r := by
  unfold drgn_compound_type_from_dwarf at h
  cases hdecl : die.attrs.declFlag
  · simp only [hdecl] at h
    simp only [Bool.false_eq_true, if_false]
    rcases hbs : die.attrs.byteSize with _ | size <;> simp only [hbs] at h
    · obtain ⟨rfl, rfl⟩ := pair_eq_inv h
      exact ⟨hspec_of_eq hbf rfl rfl (fun hx _ _ => absurd hx (by simp)),
        noStopRes_other _⟩
    rcases hproc : processMembers rec img img.littleEndian kind
        (memberChildren die) [] st with ⟨mr, st₁⟩
    rw [hproc] at h
    have hm := processMembers_hspec hrec rfl (memberChildren die) [] st mr
      st₁ hbf hproc
    rcases mr with e | members
    · obtain ⟨rfl, rfl⟩ := pair_eq_inv h
      exact ⟨hspec_weaken hm.1 (fun hx => absurd hx (by simp)),
        noStopRes_error (ne_stop_of_noStopRes hm.2)⟩
    · simp only at h
      obtain ⟨rfl, rfl⟩ := pair_eq_inv h
      exact ⟨hspec_alloc_after hm.1 _ rfl (fun _ => ⟨members, rfl⟩),
        noStopRes_ok _⟩
  · simp only [hdecl] at h
    simp only [if_true]
    rcases hnm : die.attrs.nameA with _ | n <;> simp only [hnm] at h
    · obtain ⟨rfl, rfl⟩ := pair_eq_inv h
      have hE : declTargets img kind.toTag (none : Option String) = [] := rfl
      rw [hE]
      exact ⟨hspec_nil_succ (hspec_alloc_after
        (hspec_rfl ([] : List Addr) hbf) _ rfl (fun f => f)) _,
        noStopRes_ok _⟩
    rcases hfc : drgn_dwarf_info_cache_find_complete rec img st kind.toTag n
      with ⟨fr, st₁⟩
    rw [hfc] at h
    have hf := find_complete_hspec hrec hbf hfc
    rcases fr with e | k
    · dsimp only at h
      by_cases hstop : e = DErr.stop
      · rw [if_pos hstop] at h
        obtain ⟨rfl, rfl⟩ := pair_eq_inv h
        have hE0 : declTargets img kind.toTag (some n) = [] :=
          hf.2 (by rw [hstop])
        rw [hE0]
        exact ⟨hspec_nil_succ (hspec_alloc_after
          (hspec_nil_succ (hspec_congr hf.1 hE0.symm) True) _ rfl
          (fun t : True => t)) _, noStopRes_ok _⟩
      · rw [if_neg hstop] at h
        obtain ⟨rfl, rfl⟩ := pair_eq_inv h
        exact ⟨hspec_weaken hf.1 (fun hx => absurd hx (by simp)),
          noStopRes_error hstop⟩
    · dsimp only at h
      obtain ⟨rfl, rfl⟩ := pair_eq_inv h
      exact ⟨hspec_weaken hf.1 (fun _ => ⟨k, rfl⟩), noStopRes_ok _⟩

theorem parse_enumerator_noStop {die : Die} {items : List EnumItem}
    {s : Bool} {e : DErr} (h : parse_enumerator die items s = .error e) :
    e ≠ .stop := by
  unfold parse_enumerator at h
  rcases hn : die.attrs.nameA with _ | nm <;> simp only [hn] at h
  · rw [← Except.error.inj h]
    intro hc
    cases hc
  rcases hc2 : die.attrs.constValue with _ | a <;> simp only [hc2] at h
  · rw [← Except.error.inj h]
    intro hc
    cases hc
  split at h <;> simp at h

theorem collectEnumerators_noStop :
    ∀ (cs : List Die) (items : List EnumItem) (s : Bool) (e : DErr),
      collectEnumerators cs items s = .error e → e ≠ .stop := by
  intro cs
  induction cs with
  | nil =>
    intro items s e h
    simp [collectEnumerators] at h
  | cons c rest ih =>
    intro items s e h
    unfold collectEnumerators at h
    split at h
    · rcases hpe : parse_enumerator c items s with e' | x <;>
        simp only [hpe] at h
      · rw [← Except.error.inj h]
        exact parse_enumerator_noStop hpe
      · rcases x with ⟨items', s'⟩
        exact ih items' s' e h
    · exact ih items s e h

/-- `drgn_enum_type_from_dwarf` satisfies the call specification: a
declaration's eager target is the unique index hit; a complete enum's
eager target is its `DW_AT_type` compatible type. -/
theorem enum_hspec {img : Image} {rec : Resolver} {st : State} {die : Die}
    {r : Except DErr TypeHandle} {st' : State}
    (hrec : RecOK img rec) (hbf : BadFree img st)
    (h : drgn_enum_type_from_dwarf rec img st die = (r, st')) :
    HSpec img
      (if die.attrs.declFlag then
        declTargets img DW_TAG_enumeration_type die.attrs.nameA
      else childTarget die)
      st st' (∃ k, r = .ok k) ∧ NoStopRes r := by
  unfold drgn_enum_type_from_dwarf at h
  cases hdecl : die.attrs.declFlag
  · simp only [hdecl] at h
    simp only [Bool.false_eq_true, if_false]
    rcases hce : collectEnumerators die.children [] false with e | x <;>
      simp only [hce] at h
    · obtain ⟨rfl, rfl⟩ := pair_eq_inv h
      exact ⟨hspec_of_eq hbf rfl rfl (fun hx _ _ => absurd hx (by simp)),
        noStopRes_error (collectEnumerators_noStop _ _ _ _ hce)⟩
    rcases x with ⟨items, is_signed⟩
    rcases htr : die.attrs.typeRef with _ | t <;> simp only [htr] at h
    · have hct : childTarget die = [] := by simp [childTarget, htr]
      rw [hct]
      unfold enum_compatible_type_fallback at h
      rcases hbs : die.attrs.byteSize with _ | size <;> simp only [hbs] at h
      · obtain ⟨rfl, rfl⟩ := pair_eq_inv h
        exact ⟨hspec_of_eq hbf rfl rfl (fun hx _ _ => absurd hx (by simp)),
          noStopRes_other _⟩
      · obtain ⟨rfl, rfl⟩ := pair_eq_inv h
        exact ⟨hspec_nil_succ (hspec_alloc_after (hspec_nil_succ
          (hspec_alloc_after (hspec_rfl ([] : List Addr) hbf) _ rfl
            (fun f : False => f)) True) _ rfl (fun t : True => t)) _,
          noStopRes_ok _⟩
    have hct : childTarget die = [t] := by simp [childTarget, htr]
    rw [hct]
    rcases hdies : img.dies t with _ | d <;> simp only [hdies] at h
    · obtain ⟨rfl, rfl⟩ := pair_eq_inv h
      refine ⟨⟨rfl, hbf, fun k _ => slotsAgree_refl _ k, ?_⟩,
        noStopRes_other _⟩
      rintro ⟨k, hk⟩
      simp at hk
    rcases hcall : rec st t true with ⟨cr, st₁⟩
    rw [hcall] at h
    have hcs := recOK_call_hspec hrec hbf hcall
    have hnost := (hrec st t true _ _ hbf hcall).2.2.2.2
    rcases cr with e | v
    · obtain ⟨rfl, rfl⟩ := pair_eq_inv h
      exact ⟨hspec_weaken hcs (fun hx => absurd hx (by simp)),
        noStopRes_error (hnost e rfl)⟩
    rcases v with ⟨v, w⟩
    simp only at h
    split at h <;> obtain ⟨rfl, rfl⟩ := pair_eq_inv h
    · exact ⟨hspec_alloc_after hcs _ rfl (fun _ => ⟨(v, w), rfl⟩),
        noStopRes_ok _⟩
    · exact ⟨hspec_weaken hcs (fun hx => absurd hx (by simp)),
        noStopRes_other _⟩
  · simp only [hdecl] at h
    simp only [if_true]
    rcases hnm : die.attrs.nameA with _ | n <;> simp only [hnm] at h
    · obtain ⟨rfl, rfl⟩ := pair_eq_inv h
      have hE : declTargets img DW_TAG_enumeration_type
          (none : Option String) = [] := rfl
      rw [hE]
      exact ⟨hspec_nil_succ (hspec_alloc_after
        (hspec_rfl ([] : List Addr) hbf) _ rfl (fun f : False => f)) _,
        noStopRes_ok _⟩
    rcases hfc : drgn_dwarf_info_cache_find_complete rec img st
      DW_TAG_enumeration_type n with ⟨fr, st₁⟩
    rw [hfc] at h
    have hf := find_complete_hspec hrec hbf hfc
    rcases fr with e | k
    · dsimp only at h
      by_cases hstop : e = DErr.stop
      · rw [if_pos hstop] at h
        obtain ⟨rfl, rfl⟩ := pair_eq_inv h
        have hE0 : declTargets img DW_TAG_enumeration_type (some n) = [] :=
          hf.2 (by rw [hstop])
        rw [hE0]
        exact ⟨hspec_nil_succ (hspec_alloc_after
          (hspec_nil_succ (hspec_congr hf.1 hE0.symm) True) _ rfl
          (fun t : True => t)) _, noStopRes_ok _⟩
      · rw [if_neg hstop] at h
        obtain ⟨rfl, rfl⟩ := pair_eq_inv h
        exact ⟨hspec_weaken hf.1 (fun hx => absurd hx (by simp)),
          noStopRes_error hstop⟩
    · dsimp only at h
      obtain ⟨rfl, rfl⟩ := pair_eq_inv h
      exact ⟨hspec_weaken hf.1 (fun _ => ⟨k, rfl⟩), noStopRes_ok _⟩

/-- `drgn_typedef_type_from_dwarf` satisfies the call specification on the
aliased `DW_AT_type`. -/
theorem typedef_hspec {img : Image} {rec : Resolver} {st : State}
    {die : Die} {ci : Bool} {r : Except DErr (TypeHandle × Option Bool)}
    {st' : State} (hrec : RecOK img rec) (hbf : BadFree img st)
    (h : drgn_typedef_type_from_dwarf rec img st die ci = (r, st')) :
    HSpec img (childTarget die) st st' (∃ x, r = .ok x) ∧ NoStopRes r := by
  unfold drgn_typedef_type_from_dwarf at h
  rcases hn : die.attrs.nameA with _ | nm <;> simp only [hn] at h
  · obtain ⟨rfl, rfl⟩ := pair_eq_inv h
    exact ⟨hspec_of_eq hbf rfl rfl (fun hx _ _ => absurd hx (by simp)),
      noStopRes_other _⟩
  rcases hch : drgn_type_from_dwarf_child rec img st die "DW_TAG_typedef"
    true ci with ⟨cr, st₁⟩
  rw [hch] at h
  have hc := child_hspec hrec hbf hch
  rcases cr with e | v
  · obtain ⟨rfl, rfl⟩ := pair_eq_inv h
    exact ⟨hspec_weaken hc.1 (fun hx => absurd hx (by simp)),
      noStopRes_error (fun hs => hc.2 e rfl hs)⟩
  rcases v with ⟨v, wr⟩
  dsimp only at h
  obtain ⟨rfl, rfl⟩ := pair_eq_inv h
  exact ⟨hspec_alloc_after hc.1 _ rfl (fun _ => ⟨(v, wr), rfl⟩),
    noStopRes_ok _⟩

/-- `drgn_pointer_type_from_dwarf` satisfies the call specification on the
referenced `DW_AT_type`. -/
theorem pointer_hspec {img : Image} {rec : Resolver} {st : State}
    {die : Die} {r : Except DErr TypeHandle} {st' : State}
    (hrec : RecOK img rec) (hbf : BadFree img st)
    (h : drgn_pointer_type_from_dwarf rec img st die = (r, st')) :
    HSpec img (childTarget die) st st' (∃ x, r = .ok x) ∧ NoStopRes r := by
  unfold drgn_pointer_type_from_dwarf at h
  rcases hch : drgn_type_from_dwarf_child rec img st die
    "DW_TAG_pointer_type" true true with ⟨cr, st₁⟩
  rw [hch] at h
  have hc := child_hspec hrec hbf hch
  rcases cr with e | v
  · obtain ⟨rfl, rfl⟩ := pair_eq_inv h
    exact ⟨hspec_weaken hc.1 (fun hx => absurd hx (by simp)),
      noStopRes_error (fun hs => hc.2 e rfl hs)⟩
  rcases v with ⟨v, wr⟩
  dsimp only at h
  obtain ⟨rfl, rfl⟩ := pair_eq_inv h
  exact ⟨hspec_alloc_after hc.1 _ rfl (fun _ => ⟨(v, wr), rfl⟩),
    noStopRes_ok _⟩

theorem subrange_length_noStop {die : Die} {e : DErr}
    (h : subrange_length die = .error e) : e ≠ .stop := by
  unfold subrange_length at h
  rcases hu : die.attrs.upperBound with _ | u <;>
    rcases hc : die.attrs.countA with _ | c <;> simp only [hu, hc] at h
  · exact absurd h (by simp)
  all_goals
    (repeat' split at h) <;>
      first
        | exact Except.noConfusion h
        | (intro hx
           exact absurd ((Except.error.inj h).trans hx)
             (by intro hy; cases hy))

theorem collectDims_noStop :
    ∀ (cs : List Die) (e : DErr), collectDims cs = .error e → e ≠ .stop := by
  intro cs
  induction cs with
  | nil =>
    intro e h
    simp [collectDims] at h
  | cons c rest ih =>
    intro e h
    unfold collectDims at h
    split at h
    · rcases hsl : subrange_length c with e' | d <;> simp only [hsl] at h
      · rw [← Except.error.inj h]
        exact subrange_length_noStop hsl
      · rcases hcd : collectDims rest with e' | ds <;> simp only [hcd] at h
        · rw [← Except.error.inj h]
          exact ih e' hcd
        · simp at h
    · exact ih e h

/-- `buildArrayTypes` only allocates descriptors; it never touches the
maps or the depth counter. -/
theorem buildArrayTypes_heapOnly {ci : Bool} :
    ∀ (dims : List Dimension) (st : State) (qt : QualType),
      ∃ hp, (buildArrayTypes ci st qt dims).2 = { st with heap := hp } := by
  intro dims
  induction dims with
  | nil =>
    intro st qt
    exact ⟨st.heap, rfl⟩
  | cons d rest ih =>
    intro st qt
    rcases rest with _ | ⟨d2, rest2⟩
    · unfold buildArrayTypes
      dsimp only
      split
      · exact ⟨_, rfl⟩
      · split
        · exact ⟨_, rfl⟩
        · exact ⟨_, rfl⟩
    · unfold buildArrayTypes
      dsimp only
      split
      · obtain ⟨hp, hhp⟩ := ih (st.alloc (.arrayT qt d.length)).2
          ⟨(st.alloc (.arrayT qt d.length)).1, 0⟩
        exact ⟨hp, hhp⟩
      · split
        · obtain ⟨hp, hhp⟩ := ih (st.alloc (.arrayT qt 0)).2
            ⟨(st.alloc (.arrayT qt 0)).1, 0⟩
          exact ⟨hp, hhp⟩
        · obtain ⟨hp, hhp⟩ := ih (st.alloc (.incompleteArrayT qt)).2
            ⟨(st.alloc (.incompleteArrayT qt)).1, 0⟩
          exact ⟨hp, hhp⟩

/-- `drgn_array_type_from_dwarf` satisfies the call specification on the
element `DW_AT_type`. -/
theorem array_hspec {img : Image} {rec : Resolver} {st : State} {die : Die}
    {ci : Bool} {r : Except DErr (TypeHandle × Bool)} {st' : State}
    (hrec : RecOK img rec) (hbf : BadFree img st)
    (h : drgn_array_type_from_dwarf rec img st die ci = (r, st')) :
    HSpec img (childTarget die) st st' (∃ x, r = .ok x) ∧ NoStopRes r := by
  unfold drgn_array_type_from_dwarf at h
  rcases hcd : collectDims die.children with e | dims0 <;>
    simp only [hcd] at h
  · obtain ⟨rfl, rfl⟩ := pair_eq_inv h
    exact ⟨hspec_of_eq hbf rfl rfl (fun hx _ _ => absurd hx (by simp)),
      noStopRes_error (collectDims_noStop _ _ hcd)⟩
  rcases hch : drgn_type_from_dwarf_child rec img st die "DW_TAG_array_type"
    false false with ⟨cr, st₁⟩
  rw [hch] at h
  have hc := child_hspec hrec hbf hch
  rcases cr with e | v
  · obtain ⟨rfl, rfl⟩ := pair_eq_inv h
    exact ⟨hspec_weaken hc.1 (fun hx => absurd hx (by simp)),
      noStopRes_error (fun hs => hc.2 e rfl hs)⟩
  rcases v with ⟨element_type, wr⟩
  dsimp only at h
  obtain ⟨rfl, rfl⟩ := pair_eq_inv h
  obtain ⟨hp, hhp⟩ := buildArrayTypes_heapOnly
    ((if dims0.isEmpty then [⟨0, false⟩] else dims0).reverse) st₁
    element_type
  exact ⟨hspec_alloc_after hc.1 hp hhp (fun _ => ⟨(element_type, wr), rfl⟩),
    noStopRes_ok _⟩

theorem parse_formal_parameter_noStop {img : Image} {die : Die} {e : DErr}
    (h : parse_formal_parameter img die = .error e) : e ≠ .stop := by
  unfold parse_formal_parameter drgn_lazy_type_from_dwarf at h
  rcases htr : die.attrs.typeRef with _ | t <;> simp only [htr] at h
  · rw [← Except.error.inj h]
    intro hc
    cases hc
  rcases hdies : img.dies t with _ | d <;> simp only [hdies] at h
  · rw [← Except.error.inj h]
    intro hc
    cases hc
  · simp at h

theorem processParams_noStop {img : Image} :
    ∀ (cs : List Die) (variadic : Bool) (ps : List Param) (e : DErr),
      processParams img cs variadic ps = .error e → e ≠ .stop := by
  intro cs
  induction cs with
  | nil =>
    intro variadic ps e h
    simp [processParams] at h
  | cons c rest ih =>
    intro variadic ps e h
    unfold processParams at h
    split at h
    · split at h
      · rw [← Except.error.inj h]
        intro hc
        cases hc
      · rcases hpf : parse_formal_parameter img c with e' | p <;>
          simp only [hpf] at h
        · rw [← Except.error.inj h]
          exact parse_formal_parameter_noStop hpf
        · exact ih _ _ e h
    · split at h
      · split at h
        · rw [← Except.error.inj h]
          intro hc
          cases hc
        · exact ih _ _ e h
      · exact ih _ _ e h

/-- `drgn_function_type_from_dwarf` satisfies the call specification on
the return `DW_AT_type`. -/
theorem function_hspec {img : Image} {rec : Resolver} {st : State}
    {die : Die} {r : Except DErr TypeHandle} {st' : State}
    (hrec : RecOK img rec) (hbf : BadFree img st)
    (h : drgn_function_type_from_dwarf rec img st die = (r, st')) :
    HSpec img (childTarget die) st st' (∃ x, r = .ok x) ∧ NoStopRes r := by
  unfold drgn_function_type_from_dwarf at h
  rcases hpp : processParams img die.children false [] with e | x <;>
    simp only [hpp] at h
  · obtain ⟨rfl, rfl⟩ := pair_eq_inv h
    exact ⟨hspec_of_eq hbf rfl rfl (fun hx _ _ => absurd hx (by simp)),
      noStopRes_error (processParams_noStop _ _ _ _ hpp)⟩
  rcases x with ⟨params, variadic⟩
  rcases hch : drgn_type_from_dwarf_child rec img st die
    "DW_TAG_subroutine_type" true true with ⟨cr, st₁⟩
  rw [hch] at h
  have hc := child_hspec hrec hbf hch
  rcases cr with e | v
  · obtain ⟨rfl, rfl⟩ := pair_eq_inv h
    exact ⟨hspec_weaken hc.1 (fun hx => absurd hx (by simp)),
      noStopRes_error (fun hs => hc.2 e rfl hs)⟩
  rcases v with ⟨v, wr⟩
  dsimp only at h
  obtain ⟨rfl, rfl⟩ := pair_eq_inv h
  exact ⟨hspec_alloc_after hc.1 _ rfl (fun _ => ⟨(v, wr), rfl⟩),
    noStopRes_ok _⟩

/-- The dispatch switch of `drgn_type_from_dwarf_internal` satisfies the
call specification on `eagerTargets`. -/
theorem dispatch_hspec {img : Image} {rec : Resolver} {st : State}
    {die : Die} {ci : Bool} {r : Except DErr (QualType × Bool)} {st' : State}
    (hrec : RecOK img rec) (hbf : BadFree img st)
    (h : dispatchTag rec img st die ci = (r, st')) :
    HSpec img (eagerTargets img die) st st' (∃ v, r = .ok v) ∧
      NoStopRes r := by
  unfold dispatchTag at h
  rcases htc : tagClass die.tag with ⟨bit, nm⟩ | _ | kind | _ | _ | _ | _ | _
      | _ <;> simp only [htc] at h <;>
    (have hE : eagerTargets img die =
        (match tagClass die.tag with
          | .qualifier _ _ => childTarget die
          | .base =>
            if die.attrs.encoding = some DW_ATE_complex_float then
              childTarget die
            else []
          | .compound kind =>
            if die.attrs.declFlag then
              declTargets img kind.toTag die.attrs.nameA
            else memberEvalTargets img (memberChildren die)
          | .enumeration =>
            if die.attrs.declFlag then
              declTargets img DW_TAG_enumeration_type die.attrs.nameA
            else childTarget die
          | .typedefC => childTarget die
          | .pointer => childTarget die
          | .array => childTarget die
          | .function => childTarget die
          | .unknown => []) := rfl) <;>
    rw [hE, htc]
  · rcases hch : drgn_type_from_dwarf_child rec img st die nm true true
      with ⟨cr, st₁⟩
    rw [hch] at h
    have hc := child_hspec hrec hbf hch
    rcases cr with e | v
    · obtain ⟨rfl, rfl⟩ := pair_eq_inv h
      exact ⟨hspec_weaken hc.1 (fun hx => absurd hx (by simp)),
        noStopRes_error (fun hs => hc.2 e rfl hs)⟩
    · rcases v with ⟨v, w⟩
      dsimp only at h
      obtain ⟨rfl, rfl⟩ := pair_eq_inv h
      exact ⟨hspec_weaken hc.1 (fun _ => ⟨(v, w), rfl⟩), noStopRes_ok _⟩
  · rcases hsub : drgn_base_type_from_dwarf rec img st die with ⟨sr, st₁⟩
    rw [hsub] at h
    have hc := base_hspec hrec hbf hsub
    rcases sr with e | k
    · obtain ⟨rfl, rfl⟩ := pair_eq_inv h
      exact ⟨hspec_weaken hc.1 (fun hx => absurd hx (by simp)),
        noStopRes_error (ne_stop_of_noStopRes hc.2)⟩
    · dsimp only at h
      obtain ⟨rfl, rfl⟩ := pair_eq_inv h
      exact ⟨hspec_weaken hc.1 (fun _ => ⟨k, rfl⟩), noStopRes_ok _⟩
  · rcases hsub : drgn_compound_type_from_dwarf rec img st die kind
      with ⟨sr, st₁⟩
    rw [hsub] at h
    have hc := compound_hspec hrec hbf hsub
    rcases sr with e | k
    · obtain ⟨rfl, rfl⟩ := pair_eq_inv h
      exact ⟨hspec_weaken hc.1 (fun hx => absurd hx (by simp)),
        noStopRes_error (ne_stop_of_noStopRes hc.2)⟩
    · dsimp only at h
      obtain ⟨rfl, rfl⟩ := pair_eq_inv h
      exact ⟨hspec_weaken hc.1 (fun _ => ⟨k, rfl⟩), noStopRes_ok _⟩
  · rcases hsub : drgn_enum_type_from_dwarf rec img st die with ⟨sr, st₁⟩
    rw [hsub] at h
    have hc := enum_hspec hrec hbf hsub
    rcases sr with e | k
    · obtain ⟨rfl, rfl⟩ := pair_eq_inv h
      exact ⟨hspec_weaken hc.1 (fun hx => absurd hx (by simp)),
        noStopRes_error (ne_stop_of_noStopRes hc.2)⟩
    · dsimp only at h
      obtain ⟨rfl, rfl⟩ := pair_eq_inv h
      exact ⟨hspec_weaken hc.1 (fun _ => ⟨k, rfl⟩), noStopRes_ok _⟩
  · rcases hsub : drgn_typedef_type_from_dwarf rec img st die ci
      with ⟨sr, st₁⟩
    rw [hsub] at h
    have hc := typedef_hspec hrec hbf hsub
    rcases sr with e | x
    · obtain ⟨rfl, rfl⟩ := pair_eq_inv h
      exact ⟨hspec_weaken hc.1 (fun hx => absurd hx (by simp)),
        noStopRes_error (ne_stop_of_noStopRes hc.2)⟩
    · rcases x with ⟨k, wr⟩
      dsimp only at h
      obtain ⟨rfl, rfl⟩ := pair_eq_inv h
      exact ⟨hspec_weaken hc.1 (fun _ => ⟨(k, wr), rfl⟩), noStopRes_ok _⟩
  · rcases hsub : drgn_pointer_type_from_dwarf rec img st die with ⟨sr, st₁⟩
    rw [hsub] at h
    have hc := pointer_hspec hrec hbf hsub
    rcases sr with e | k
    · obtain ⟨rfl, rfl⟩ := pair_eq_inv h
      exact ⟨hspec_weaken hc.1 (fun hx => absurd hx (by simp)),
        noStopRes_error (ne_stop_of_noStopRes hc.2)⟩
    · dsimp only at h
      obtain ⟨rfl, rfl⟩ := pair_eq_inv h
      exact ⟨hspec_weaken hc.1 (fun _ => ⟨k, rfl⟩), noStopRes_ok _⟩
  · rcases hsub : drgn_array_type_from_dwarf rec img st die ci with ⟨sr, st₁⟩
    rw [hsub] at h
    have hc := array_hspec hrec hbf hsub
    rcases sr with e | x
    · obtain ⟨rfl, rfl⟩ := pair_eq_inv h
      exact ⟨hspec_weaken hc.1 (fun hx => absurd hx (by simp)),
        noStopRes_error (ne_stop_of_noStopRes hc.2)⟩
    · rcases x with ⟨k, b⟩
      dsimp only at h
      obtain ⟨rfl, rfl⟩ := pair_eq_inv h
      exact ⟨hspec_weaken hc.1 (fun _ => ⟨(k, b), rfl⟩), noStopRes_ok _⟩
  · rcases hsub : drgn_function_type_from_dwarf rec img st die with ⟨sr, st₁⟩
    rw [hsub] at h
    have hc := function_hspec hrec hbf hsub
    rcases sr with e | k
    · obtain ⟨rfl, rfl⟩ := pair_eq_inv h
      exact ⟨hspec_weaken hc.1 (fun hx => absurd hx (by simp)),
        noStopRes_error (ne_stop_of_noStopRes hc.2)⟩
    · dsimp only at h
      obtain ⟨rfl, rfl⟩ := pair_eq_inv h
      exact ⟨hspec_weaken hc.1 (fun _ => ⟨k, rfl⟩), noStopRes_ok _⟩
  · obtain ⟨rfl, rfl⟩ := pair_eq_inv h
    exact ⟨hspec_of_eq hbf rfl rfl (fun hx _ _ => absurd hx (by simp)),
      noStopRes_other _⟩

/-- The memo-miss path satisfies the call guarantee, assuming the
recursive entry point does.  The key step is that a successful dispatch of
`a` forces every eager target off any cycle, so `a` itself cannot lie on
one. -/
theorem resolveMissPath_recOK {img : Image} {rec : Resolver} {st : State}
    {a : Addr} {c : Bool} {r : Except DErr (QualType × Option Bool)}
    {st' : State} (hrec : RecOK img rec) (hbf : BadFree img st)
    (h : resolveMissPath rec img st a c = (r, st')) :
    RecOKAt img st a r st' := by
  unfold resolveMissPath at h
  rcases hdies : img.dies a with _ | die <;> simp only [hdies] at h
  · obtain ⟨rfl, rfl⟩ := pair_eq_inv h
    refine ⟨rfl, hbf, ?_, fun k _ _ => slotsAgree_refl _ _, ?_⟩
    · rintro ⟨v, hv⟩
      simp at hv
    · exact fun e he => noStopRes_other _ e he
  · rcases hdisp : dispatchTag rec img { st with depth := st.depth + 1 }
      die c with ⟨dr, st₂⟩
    rw [hdisp] at h
    have hbf1 : BadFree img { st with depth := st.depth + 1 } := hbf
    have hd := dispatch_hspec hrec hbf1 hdisp
    have hdep2 : st₂.depth = st.depth + 1 := hd.1.1
    have hAv : ∀ k, ¬ Relation.TransGen (EdgeR img) a k →
        Avoids img (eagerTargets img die) k := by
      intro k hnt b hb hrt
      exact hnt (Relation.TransGen.head' ⟨die, hdies, hb⟩ hrt)
    rcases dr with e | v
    · obtain ⟨rfl, rfl⟩ := pair_eq_inv h
      refine ⟨?_, ?_, ?_, ?_, ?_⟩
      · show st₂.depth - 1 = st.depth
        omega
      · exact hd.1.2.1
      · rintro ⟨v, hv⟩
        simp at hv
      · intro k hnt _
        exact hd.1.2.2.1 k (hAv k hnt)
      · exact fun e' he' => noStopRes_error (hd.2 e rfl) e' he'
    · rcases v with ⟨qt, inc⟩
      dsimp only at h
      have hok : ¬ BadK img a := by
        intro hbad
        rcases (Relation.TransGen.head'_iff).mp hbad with ⟨b, hab, hba⟩
        obtain ⟨d2, hd2, hmem⟩ := hab
        rw [hdies] at hd2
        obtain rfl := Option.some.inj hd2
        have hnb := hd.1.2.2.2 ⟨(qt, inc), rfl⟩ b hmem
        exact hnb (Relation.TransGen.trans_right hba
          (Relation.TransGen.single ⟨die, hdies, hmem⟩))
      have hins : ∀ (m : DTypeMap) (k : Addr), k ≠ a →
          mapInsert m a ⟨qt.type, qt.quals, inc⟩ k = m k := by
        intro m k hka
        unfold mapInsert
        rw [if_neg hka]
      split at h <;> obtain ⟨rfl, rfl⟩ := pair_eq_inv h <;>
        refine ⟨by show st₂.depth - 1 = st.depth; omega, ?_, fun _ => hok,
          ?_, fun e he => by simp at he⟩
      · intro k hk
        have hka : k ≠ a := fun he => hok (he ▸ hk)
        exact ⟨(hd.1.2.1 k hk).1, (hins _ k hka).trans (hd.1.2.1 k hk).2⟩
      · intro k hnt hor
        have hka : k ≠ a := by
          rcases hor with hka | ⟨e, he⟩
          · exact hka
          · simp at he
        have hsl := hd.1.2.2.1 k (hAv k hnt)
        exact ⟨hsl.1, (hins _ k hka).trans hsl.2⟩
      · intro k hk
        have hka : k ≠ a := fun he => hok (he ▸ hk)
        exact ⟨(hins _ k hka).trans (hd.1.2.1 k hk).1, (hd.1.2.1 k hk).2⟩
      · intro k hnt hor
        have hka : k ≠ a := by
          rcases hor with hka | ⟨e, he⟩
          · exact hka
          · simp at he
        have hsl := hd.1.2.2.1 k (hAv k hnt)
        exact ⟨(hins _ k hka).trans hsl.1, hsl.2⟩

/-- The big fuel induction: every fuel instantiation of the memoization
core satisfies the call guarantee. -/
theorem drgn_type_from_dwarf_internal_recOK (img : Image) :
    ∀ fuel, RecOK img (drgn_type_from_dwarf_internal fuel img) := by
  intro fuel
  induction fuel with
  | zero =>
    intro st a c r st' hbf hcall
    unfold drgn_type_from_dwarf_internal at hcall
    obtain ⟨rfl, rfl⟩ := pair_eq_inv hcall
    refine ⟨rfl, hbf, ?_, fun k _ _ => slotsAgree_refl _ _, ?_⟩
    · rintro ⟨v, hv⟩
      simp at hv
    · intro e he
      rw [← Except.error.inj he]
      intro hc2
      cases hc2
  | succ fuel ih =>
    intro st a c r st' hbf hcall
    unfold drgn_type_from_dwarf_internal at hcall
    by_cases hdep : 1000 ≤ st.depth
    · rw [if_pos hdep] at hcall
      obtain ⟨rfl, rfl⟩ := pair_eq_inv hcall
      refine ⟨rfl, hbf, ?_, fun k _ _ => slotsAgree_refl _ _, ?_⟩
      · rintro ⟨v, hv⟩
        simp at hv
      · intro e he
        rw [← Except.error.inj he]
        intro hc2
        cases hc2
    · rw [if_neg hdep] at hcall
      rcases hmap : st.map a with _ | e0 <;> simp only [hmap] at hcall
      · exact resolveMissPath_recOK ih hbf hcall
      · cases hcc : (!c && e0.inc) <;> simp only [hcc] at hcall
        · obtain ⟨rfl, rfl⟩ := pair_eq_inv hcall
          refine ⟨rfl, hbf, ?_, fun k _ _ => slotsAgree_refl _ _,
            fun e he => by simp at he⟩
          intro _ hbad
          exact absurd (hbf a hbad).1 (by rw [hmap]; simp)
        · rcases hcm : st.cmap a with _ | e1 <;> simp only [hcm] at hcall
          · exact resolveMissPath_recOK ih hbf hcall
          · obtain ⟨rfl, rfl⟩ := pair_eq_inv hcall
            refine ⟨rfl, hbf, ?_, fun k _ _ => slotsAgree_refl _ _,
              fun e he => by simp at he⟩
            intro _ hbad
            exact absurd (hbf a hbad).1 (by rw [hmap]; simp)

/-! ## Claim C3: errors do not poison the cache -/

/-- C3: for every DIE `D` and every value of `can_be_incomplete_array`, a
call to `resolve(D, can_be_incomplete_array)` that returns an error adds no
entry for `D` to either memoization map (primary or restricted) and
restores the recursion-depth counter to its pre-call value, assuming the
cache satisfies the no-memoized-cycles invariant (which holds of the fresh
cache and is preserved by every call). -/
theorem resolve_error_no_poison (img : Image) (st : State) (a : Addr)
    (c : Bool) (e : DErr) (st' : State) (hbf : BadFree img st)
    (h : resolveTop img st a c = (.error e, st')) :
    st'.depth = st.depth ∧ st'.map a = st.map a ∧ st'.cmap a = st.cmap a := by
  have h' : drgn_type_from_dwarf_internal topFuel img st a c =
      (.error e, st') := h
  obtain ⟨hd, hbf', _, hslots, _⟩ :=
    drgn_type_from_dwarf_internal_recOK img topFuel st a c (.error e) st'
      hbf h'
  by_cases hbad : BadK img a
  · obtain ⟨h1, h2⟩ := hbf a hbad
    obtain ⟨h3, h4⟩ := hbf' a hbad
    exact ⟨hd, h3.trans h1.symm, h4.trans h2.symm⟩
  · obtain ⟨h1, h2⟩ := hslots a hbad (Or.inr ⟨e, rfl⟩)
    exact ⟨hd, h1, h2⟩

/-- A one-DIE image whose DIE carries a tag the dispatch switch does not
handle, so that materializing it fails. -/
def c3Img : Image :=
  { dies := fun a => if a = 0 then some (.mk 999 {} []) else none,
    littleEndian := true, wordSize := 8, index := fun _ _ => [] }

theorem resolve_error_no_poison_witness :
    initState.depth = initState.depth ∧
    initState.map 0 = initState.map 0 ∧
    initState.cmap 0 = initState.cmap 0 :=
  resolve_error_no_poison c3Img initState 0 true
    (.other "unknown DWARF type tag") initState (fun _ _ => ⟨rfl, rfl⟩) rfl

/-! ## Claim C1: memo equivalence of repeated `resolve(D, true)` -/

/-- On a successful call with `can_be_incomplete_array = true`, the depth
guard admitted the call and the returned handle/qualifier pair is memoized
for `D` in the primary map when the call returns. -/
theorem resolve_true_ok_memoized (img : Image) (fuel : Nat) (st : State)
    (a : Addr) (v : QualType) (w : Option Bool) (st₁ : State)
    (h : drgn_type_from_dwarf_internal fuel img st a true =
      (.ok (v, w), st₁)) :
    st.depth < 1000 ∧ ∃ inc, st₁.map a = some ⟨v.type, v.quals, inc⟩ := by
  match fuel with
  | 0 =>
    exact absurd (pair_eq_inv h).1 (by simp)
  | fuel + 1 =>
    unfold drgn_type_from_dwarf_internal at h
    by_cases hdep : 1000 ≤ st.depth
    · rw [if_pos hdep] at h
      exact absurd (pair_eq_inv h).1 (by simp)
    · rw [if_neg hdep] at h
      refine ⟨by omega, ?_⟩
      rcases hmap : st.map a with _ | e0 <;> simp only [hmap] at h
      · unfold resolveMissPath at h
        rcases hdies : img.dies a with _ | die <;> simp only [hdies] at h
        · exact absurd (pair_eq_inv h).1 (by simp)
        · rcases hdisp : dispatchTag (drgn_type_from_dwarf_internal fuel img)
              img { st with depth := st.depth + 1 } die true with ⟨dr, st₂⟩
          rw [hdisp] at h
          rcases dr with e | ⟨qt, inc⟩
          · exact absurd (pair_eq_inv h).1 (by simp)
          · simp only [Bool.not_true, Bool.false_and, Bool.false_eq_true,
              if_false] at h
            obtain ⟨h1, h2⟩ := pair_eq_inv h
            obtain ⟨rfl, rfl⟩ : v = qt ∧ w = some inc := by
              have := Except.ok.inj h1
              exact ⟨congrArg Prod.fst this, congrArg Prod.snd this⟩
            refine ⟨inc, ?_⟩
            rw [h2]
            show mapInsert _ a _ a = _
            unfold mapInsert
            rw [if_pos rfl]
      · simp only [Bool.not_true, Bool.false_and, Bool.false_eq_true,
          if_false] at h
        obtain ⟨h1, h2⟩ := pair_eq_inv h
        obtain ⟨rfl, rfl⟩ : v = ⟨e0.type, e0.quals⟩ ∧ w = none := by
          have := Except.ok.inj h1
          exact ⟨congrArg Prod.fst this, congrArg Prod.snd this⟩
        exact ⟨e0.inc, by rw [h2, hmap]⟩

/-- One step of the memoization core on a primary-map hit that the
`can_be_incomplete_array` restriction does not reject: the memoized pair is
returned, the out-parameter is not written, and the cache is untouched. -/
theorem resolve_hit_step (img : Image) (fuel : Nat) (st : State) (a : Addr)
    (c : Bool) (e : MapEntry) (hdep : st.depth < 1000)
    (hm : st.map a = some e) (hc : (!c && e.inc) = false) :
    drgn_type_from_dwarf_internal (fuel + 1) img st a c =
      (.ok (⟨e.type, e.quals⟩, none), st) := by
  unfold drgn_type_from_dwarf_internal
  rw [if_neg (by omega)]
  simp only [hm, hc, Bool.false_eq_true, if_false]

/-- C1: two successive calls `resolve(D, true)` on the same cache return
the same type descriptor handle and the same qualifier bitset: the first
call leaves an entry for `D` in the primary memoization map carrying
exactly the returned handle and qualifiers, and the second call is answered
from that entry, changing nothing (stated under the no-memoized-cycles
cache invariant). -/
theorem resolve_true_twice_memo (img : Image) (st st₁ : State) (a : Addr)
    (v : QualType) (w : Option Bool) (hbf : BadFree img st)
    (h : resolveTop img st a true = (.ok (v, w), st₁)) :
    (∃ inc, st₁.map a = some ⟨v.type, v.quals, inc⟩) ∧
    resolveTop img st₁ a true = (.ok (v, none), st₁) := by
  have h' : drgn_type_from_dwarf_internal topFuel img st a true =
      (.ok (v, w), st₁) := h
  obtain ⟨hdep, inc, hmem⟩ :=
    resolve_true_ok_memoized img topFuel st a v w st₁ h'
  have hd1 : st₁.depth = st.depth :=
    (drgn_type_from_dwarf_internal_recOK img topFuel st a true
      (.ok (v, w)) st₁ hbf h').1
  refine ⟨⟨inc, hmem⟩, ?_⟩
  show drgn_type_from_dwarf_internal (1000 + 1) img st₁ a true = _
  rw [resolve_hit_step img 1000 st₁ a true ⟨v.type, v.quals, inc⟩
    (by omega) hmem (by simp)]

/-- A one-DIE image: an `int` base type at address 0. -/
def c1Img : Image :=
  { dies := fun a =>
      if a = 0 then
        some (.mk DW_TAG_base_type
          { nameA := some "int", encoding := some DW_ATE_signed,
            byteSize := some 4 } [])
      else none,
    littleEndian := true, wordSize := 8, index := fun _ _ => [] }

/-- The cache after resolving the `int` DIE of `c1Img`: the result is
memoized at handle 1. -/
def c1St : State :=
  { map := mapInsert (fun _ => none) 0 ⟨1, 0, false⟩,
    cmap := fun _ => none, depth := 0,
    heap := ⟨[.intT "int" 4 true, .voidT], 2⟩ }

theorem resolve_true_twice_memo_witness :
    (∃ inc, c1St.map 0 = some ⟨1, 0, inc⟩) ∧
    resolveTop c1Img c1St 0 true = (.ok (⟨1, 0⟩, none), c1St) :=
  resolve_true_twice_memo c1Img initState c1St 0 ⟨1, 0⟩ (some false)
    (fun _ _ => ⟨rfl, rfl⟩) rfl

/-! ## Claim C4: the recursion budget -/

/-- A typedef chain: addresses `0 .. n-1` are typedef DIEs each referring
to the next address, address `n` is an `int` base type. -/
def chainImg (n : Nat) : Image :=
  { dies := fun a =>
      if a < n then
        some (.mk DW_TAG_typedef
          { nameA := some "t", typeRef := some (a + 1) } [])
      else if a = n then
        some (.mk DW_TAG_base_type
          { nameA := some "int", encoding := some DW_ATE_signed,
            byteSize := some 4 } [])
      else none,
    littleEndian := true, wordSize := 8, index := fun _ _ => [] }

theorem tagClass_typedef : tagClass DW_TAG_typedef = .typedefC := by decide

theorem chainImg_dies_lt {n a : Nat} (h : a < n) :
    (chainImg n).dies a = some (.mk DW_TAG_typedef
      { nameA := some "t", typeRef := some (a + 1) } []) := by
  simp only [chainImg]
  rw [if_pos h]

theorem chainImg_dies_eq {n a : Nat} (h : a = n) :
    (chainImg n).dies a = some (.mk DW_TAG_base_type
      { nameA := some "int", encoding := some DW_ATE_signed,
        byteSize := some 4 } []) := by
  subst h
  simp [chainImg]

/-- Resolving any typedef of the 1001-chain ends in the recursion error:
the depth counter grows one per nested typedef, the guard fires at the
frame entered with depth 1000, and the error propagates unchanged through
every enclosing frame. -/
theorem chain1001_fail : ∀ (fuel : Nat), ∀ (a : Nat) (st : State),
    1 ≤ fuel → 1001 ≤ a + fuel → st.depth = a →
    (∀ b, st.map b = none) →
    (drgn_type_from_dwarf_internal fuel (chainImg 1001) st a true).1 =
      .error .recursion := by
  intro fuel
  induction fuel with
  | zero =>
    intro a st h1 _ _ _
    exact absurd h1 (by omega)
  | succ f ih =>
    intro a st _ hsum hdep hmap
    unfold drgn_type_from_dwarf_internal
    by_cases hge : 1000 ≤ a
    · rw [if_pos (by omega)]
    · rw [if_neg (by omega)]
      simp only [hmap a]
      unfold resolveMissPath
      rw [chainImg_dies_lt (by omega : a < 1001)]
      rcases hr : drgn_type_from_dwarf_internal f (chainImg 1001)
          { st with depth := st.depth + 1 } (a + 1) true with ⟨res, st₂⟩
      have hres : res = .error .recursion := by
        have hih := ih (a + 1) { st with depth := st.depth + 1 }
          (by omega) (by omega) (by show st.depth + 1 = a + 1; omega)
          (fun b => hmap b)
        rw [hr] at hih
        exact hih
      subst hres
      simp [dispatchTag, Die.tag, Die.attrs, tagClass_typedef,
        drgn_typedef_type_from_dwarf, drgn_type_from_dwarf_child,
        chainImg_dies_lt (by omega : a + 1 < 1001), hr]

/-- Resolving any link of the 999-chain succeeds, reporting
`is_incomplete_array = false`: the deepest frame materializes the `int` at
depth at most 999, below the guard. -/
theorem chain999_ok : ∀ (fuel : Nat), ∀ (a : Nat) (st : State),
    1000 - a < fuel → a ≤ 999 → st.depth = a →
    (∀ b, st.map b = none) →
    ∃ k st', drgn_type_from_dwarf_internal fuel (chainImg 999) st a true =
      (.ok (⟨k, 0⟩, some false), st') := by
  intro fuel
  induction fuel with
  | zero =>
    intro a st h1 _ _ _
    exact absurd h1 (by omega)
  | succ f ih =>
    intro a st hfuel hle hdep hmap
    unfold drgn_type_from_dwarf_internal
    rw [if_neg (by omega)]
    simp only [hmap a]
    unfold resolveMissPath
    by_cases h999 : a = 999
    · rw [chainImg_dies_eq h999]
      simp [dispatchTag, Die.tag, Die.attrs, tagClass,
        drgn_base_type_from_dwarf, State.alloc, Heap.alloc,
        DW_TAG_base_type, DW_TAG_const_type, DW_TAG_restrict_type,
        DW_TAG_volatile_type, DW_TAG_atomic_type, DW_ATE_signed,
        DW_ATE_boolean, DW_ATE_float, DW_ATE_signed_char, DW_ATE_unsigned,
        DW_ATE_unsigned_char, DW_ATE_complex_float]
    · rw [chainImg_dies_lt (by omega : a < 999)]
      obtain ⟨k, st₂, hr⟩ := ih (a + 1) { st with depth := st.depth + 1 }
        (by omega) (by omega) (by show st.depth + 1 = a + 1; omega)
        (fun b => hmap b)
      obtain ⟨d, hd2⟩ : ∃ d, (chainImg 999).dies (a + 1) = some d := by
        by_cases hx : a + 1 < 999
        · exact ⟨_, chainImg_dies_lt hx⟩
        · exact ⟨_, chainImg_dies_eq (by omega)⟩
      simp [dispatchTag, Die.tag, Die.attrs, tagClass_typedef,
        drgn_typedef_type_from_dwarf, drgn_type_from_dwarf_child,
        hd2, hr, State.alloc, Heap.alloc, Option.getD]

/-- C4 (amended): entering `resolve` with the recursion depth already at
1000 or more fails immediately with the recursion error, leaving the cache
untouched; but the converse of the original claim is false — the error also
surfaces from calls entered below the limit, because it propagates out of
nested frames: a chain of 1001 typedef DIEs resolved from the fresh cache
(entry depth 0) fails with the recursion error, while a chain of 999
succeeds and reports `is_incomplete_array = false`. -/
theorem resolve_recursion_guard (img : Image) (st : State) (a : Addr)
    (c : Bool) (hdep : 1000 ≤ st.depth) :
    resolveTop img st a c = (.error .recursion, st) ∧
    (resolveTop (chainImg 1001) initState 0 true).1 = .error .recursion ∧
    (∃ v st', resolveTop (chainImg 999) initState 0 true =
      (.ok (v, some false), st')) := by
  refine ⟨?_, ?_, ?_⟩
  · show drgn_type_from_dwarf_internal (1000 + 1) img st a c = _
    unfold drgn_type_from_dwarf_internal
    rw [if_pos hdep]
  · exact chain1001_fail 1001 0 initState (by omega) (by omega) rfl
      (fun _ => rfl)
  · obtain ⟨k, st', h⟩ := chain999_ok 1001 0 initState (by omega) (by omega)
      rfl (fun _ => rfl)
    exact ⟨⟨k, 0⟩, st', h⟩

/-- A cache state whose recursion depth is already at the limit. -/
def deepSt : State := { initState with depth := 1000 }

theorem resolve_recursion_guard_witness :
    resolveTop (chainImg 0) deepSt 0 true = (.error .recursion, deepSt) ∧
    (resolveTop (chainImg 1001) initState 0 true).1 = .error .recursion ∧
    (∃ v st', resolveTop (chainImg 999) initState 0 true =
      (.ok (v, some false), st')) :=
  resolve_recursion_guard (chainImg 0) deepSt 0 true (by decide)

/-- The original C4 is refuted: this call fails with the recursion error
although its entry depth is 0, because the error propagates from the
nested frame that actually hit the guard. -/
theorem resolve_recursion_error_at_depth_zero :
    initState.depth < 1000 ∧
    (resolveTop (chainImg 1001) initState 0 true).1 = .error .recursion :=
  ⟨by decide,
   chain1001_fail 1001 0 initState (by omega) (by omega) rfl (fun _ => rfl)⟩

/-! ## Claim C6: qualifier DIEs and `is_incomplete_array` -/

/-- A `const` qualifier (address 0) over an incomplete array type
(address 1) of `int` (address 2). -/
def c6Img : Image :=
  { dies := fun a =>
      if a = 0 then some (.mk DW_TAG_const_type { typeRef := some 1 } [])
      else if a = 1 then
        some (.mk DW_TAG_array_type { typeRef := some 2 } [])
      else if a = 2 then
        some (.mk DW_TAG_base_type
          { nameA := some "int", encoding := some DW_ATE_signed,
            byteSize := some 4 } [])
      else none,
    littleEndian := true, wordSize := 8, index := fun _ _ => [] }

/-- The original C6 is refuted: resolving the `DW_AT_type` target of this
`DW_TAG_const_type` DIE reports `is_incomplete_array = true`, but
resolving the qualifier DIE itself reports `false` — the qualifier cases
pass a null out-pointer to the nested call and memoize/report `false`
regardless of the inner type. -/
theorem qualifier_does_not_preserve_incomplete :
    (∃ v, (resolveTop c6Img initState 1 true).1 = .ok (v, some true)) ∧
    (∃ v, (resolveTop c6Img initState 0 true).1 = .ok (v, some false)) :=
  ⟨⟨⟨2, 0⟩, rfl⟩, ⟨⟨2, Nat.lor 0 DRGN_QUALIFIER_CONST⟩, rfl⟩⟩

/-- C6 (amended): resolving a qualifier DIE (`DW_TAG_const_type`,
`DW_TAG_restrict_type`, `DW_TAG_volatile_type`, `DW_TAG_atomic_type`) on a
cache miss recurses into its `DW_AT_type` target with
`can_be_incomplete_array = true` and a null out-pointer, returns the inner
handle with the corresponding qualifier bit ORed in, and — contrary to the
original claim — does not preserve the inner `is_incomplete_array`: the
entry is memoized with the flag `false` and `false` is written through the
out-parameter. -/
theorem qualifier_dispatch_reports_false (img : Image) (fuel : Nat)
    (st : State) (a t : Addr) (c : Bool) (die tdie : Die) (bit : Nat)
    (nm : String) (v : QualType) (w : Option Bool) (st₂ : State)
    (hdep : st.depth < 1000) (hmap : st.map a = none)
    (hdies : img.dies a = some die)
    (htc : tagClass die.tag = .qualifier bit nm)
    (href : die.attrs.typeRef = some t) (htdie : img.dies t = some tdie)
    (hchild : drgn_type_from_dwarf_internal fuel img
      { st with depth := st.depth + 1 } t true = (.ok (v, w), st₂)) :
    drgn_type_from_dwarf_internal (fuel + 1) img st a c =
      (.ok (⟨v.type, Nat.lor v.quals bit⟩, some false),
       { st₂ with
         depth := st₂.depth - 1,
         map := mapInsert st₂.map a
           ⟨v.type, Nat.lor v.quals bit, false⟩ }) := by
  unfold drgn_type_from_dwarf_internal
  rw [if_neg (by omega)]
  simp only [hmap]
  unfold resolveMissPath
  rw [hdies]
  simp only [dispatchTag, htc, drgn_type_from_dwarf_child, href, htdie,
    hchild, Bool.and_false, Bool.false_eq_true, if_false]

/-- The cache state after resolving the incomplete-array target (address 1)
of `c6Img` at depth 1: `int` at handle 1, the incomplete array at
handle 2, both memoized in the primary map. -/
def c6St2 : State :=
  { map := mapInsert (mapInsert (fun _ => none) 2 ⟨1, 0, false⟩) 1
      ⟨2, 0, true⟩,
    cmap := fun _ => none, depth := 1,
    heap := ⟨[.incompleteArrayT ⟨1, 0⟩, .intT "int" 4 true, .voidT], 3⟩ }

/-! ## Claim C5: `can_be_incomplete_array` of compound members -/

/-- A member whose offset decoding does not force its lazy type keeps the
thunk (and the flag it was created with) untouched, and leaves the state
alone. -/
theorem parse_member_offset_no_eval (rec : Resolver) (img : Image)
    (st : State) (m : Die) (mt : LazyType) (bfs : Nat)
    (hne : memberNeedsEval img m = false) :
    ∃ off, parse_member_offset rec st m mt bfs img.littleEndian =
      (.ok (off, mt), st) := by
  unfold memberNeedsEval at hne
  rcases hdb : m.attrs.dataBitOffset with _ | wd
  · rcases hbo : m.attrs.bitOffset with _ | bo
    · exact ⟨mul64 8 (m.attrs.dataMemberLocation.getD 0),
        by simp [parse_member_offset, hdb, hbo]⟩
    · rcases hle : img.littleEndian
      · exact ⟨add64 (mul64 8 (m.attrs.dataMemberLocation.getD 0)) bo,
          by simp [parse_member_offset, hdb, hbo, hle]⟩
      · rcases hbs : m.attrs.byteSize with _ | bs
        · rw [hdb, hbo, hle, hbs] at hne
          simp at hne
        · exact ⟨add64 (mul64 8 (m.attrs.dataMemberLocation.getD 0))
            (sub64 (sub64 (mul64 8 bs) bo) bfs),
            by simp [parse_member_offset, hdb, hbo, hle, hbs]⟩
  · exact ⟨wd, by simp [parse_member_offset, hdb]⟩

/-- Successfully parsing a member that needs no eager evaluation appends
one member whose lazy type is the thunk created with the flag the caller
passed. -/
theorem parse_member_no_eval {rec : Resolver} {img : Image} {st : State}
    {m : Die} {ci : Bool} {b r : List Member} {st' : State}
    (hne : memberNeedsEval img m = false)
    (h : parse_member rec img st m img.littleEndian ci b = (.ok r, st')) :
    st' = st ∧ ∃ t off, m.attrs.typeRef = some t ∧
      r = b ++
        [⟨m.attrs.nameA, .thunk t ci, off, m.attrs.bitSize.getD 0⟩] := by
  unfold parse_member drgn_lazy_type_from_dwarf at h
  rcases htr : m.attrs.typeRef with _ | t <;> simp only [htr] at h
  · exact Except.noConfusion (pair_eq_inv h).1
  · rcases hdt : img.dies t with _ | d <;> simp only [hdt] at h
    · exact Except.noConfusion (pair_eq_inv h).1
    · obtain ⟨off, hoff⟩ := parse_member_offset_no_eval rec img st m
        (.thunk t ci) (m.attrs.bitSize.getD 0) hne
      simp only [hoff] at h
      obtain ⟨h1, h2⟩ := pair_eq_inv h
      exact ⟨h2, t, off, rfl, Except.ok.inj h1⟩

/-- The member loop of `drgn_compound_type_from_dwarf` on members that need
no eager evaluation: it appends one member per `DW_TAG_member` child, each
holding the thunk for the member's `DW_AT_type`, created with
`can_be_incomplete_array` false everywhere except the last position, which
gets `kind != UNION && members_so_far > 0`. -/
theorem processMembers_thunk_flags (rec : Resolver) (img : Image)
    (kind : CompKind) :
    ∀ (ms : List Die) (b : List Member) (st : State) (r : List Member)
      (st' : State),
      (∀ m ∈ ms, memberNeedsEval img m = false) →
      processMembers rec img img.littleEndian kind ms b st = (.ok r, st') →
      ∃ tail, r = b ++ tail ∧ tail.length = ms.length ∧
        ∀ i (hi : i < ms.length) (hi' : i < tail.length), ∃ t,
          (ms.get ⟨i, hi⟩).attrs.typeRef = some t ∧
          (tail.get ⟨i, hi'⟩).ty = .thunk t
            (if i = ms.length - 1 then
              decide (kind ≠ CompKind.unionC) && decide (0 < b.length + i)
            else false) := by
  intro ms
  induction ms with
  | nil =>
    intro b st r st' _ h
    simp only [processMembers] at h
    obtain ⟨h1, _⟩ := pair_eq_inv h
    refine ⟨[], (Except.ok.inj h1).trans (List.append_nil b).symm, rfl, ?_⟩
    intro i hi
    exact absurd hi (by simp)
  | cons m rest ih =>
    intro b st r st' hne h
    rcases rest with _ | ⟨m2, rest'⟩
    · simp only [processMembers] at h
      obtain ⟨hst, t, off, htr, hr⟩ :=
        parse_member_no_eval (hne m (by simp)) h
      refine ⟨[⟨m.attrs.nameA,
        .thunk t (decide (kind ≠ CompKind.unionC) &&
          decide (0 < b.length)), off, m.attrs.bitSize.getD 0⟩],
        hr, rfl, ?_⟩
      intro i hi hi'
      have hi0 : i = 0 := by
        simp only [List.length_singleton] at hi
        omega
      subst hi0
      refine ⟨t, htr, ?_⟩
      simp
    · simp only [processMembers] at h
      rcases hpm : parse_member rec img st m img.littleEndian false b
        with ⟨pr, pst⟩
      simp only [hpm] at h
      rcases pr with e | b'
      · exact Except.noConfusion (pair_eq_inv h).1
      · obtain ⟨hst, t, off, htr, hb'⟩ := parse_member_no_eval
          (hne m (by simp)) hpm
        obtain ⟨tail', hr, hlen, hflags⟩ :=
          ih b' pst r st' (fun x hx => hne x (by simp [hx])) h
        subst hb'
        refine ⟨⟨m.attrs.nameA, .thunk t false, off,
            m.attrs.bitSize.getD 0⟩ :: tail',
          by rw [hr, List.append_assoc]; rfl, by simp [hlen], ?_⟩
        intro i hi hi'
        match i with
        | 0 =>
          refine ⟨t, htr, ?_⟩
          show LazyType.thunk t false = _
          have hc : ¬ (0 = (m :: m2 :: rest').length - 1) := by
            simp only [List.length_cons]
            omega
          rw [if_neg hc]
        | j + 1 =>
          have hj : j < (m2 :: rest').length := by
            simp only [List.length_cons] at hi ⊢
            omega
          have hj' : j < tail'.length := by
            simp only [List.length_cons] at hi'
            omega
          obtain ⟨t', htr', hty'⟩ := hflags j hj hj'
          refine ⟨t', htr', ?_⟩
          show (tail'.get ⟨j, hj'⟩).ty = _
          rw [hty']
          congr 1
          simp only [List.length_cons, List.length_append,
            List.length_singleton, Nat.add_sub_cancel] at *
          by_cases hcase : j = rest'.length
          · rw [if_pos (by omega), if_pos (by omega)]
            congr 1
            exact decide_eq_decide.mpr (by omega)
          · rw [if_neg (by omega), if_neg (by omega)]

/-- A fresh allocation is visible at its returned handle. -/
theorem heap_at_alloc (h : Heap) (d : TypeDesc) :
    ((h.alloc d).2).at' (h.alloc d).1 = some d := by
  have hlt : h.size < h.size + 1 := Nat.lt_succ_self _
  have he : h.size + 1 - 1 - h.size = 0 := by omega
  simp [Heap.alloc, Heap.at', hlt, he]

/-- C5: materializing a complete struct/union/class DIE (whose members need
no eager evaluation) produces a compound descriptor with one member per
`DW_TAG_member` child; the lazy type of every non-last member was created
with `can_be_incomplete_array = false`, and that of the last member with
`can_be_incomplete_array = (kind != UNION && at least one member precedes
it)`. -/
theorem compound_member_canInc_flags (rec : Resolver) (img : Image)
    (st : State) (die : Die) (kind : CompKind) (k : TypeHandle)
    (st' : State) (hdecl : die.attrs.declFlag = false)
    (hne : ∀ m ∈ memberChildren die, memberNeedsEval img m = false)
    (h : drgn_compound_type_from_dwarf rec img st die kind = (.ok k, st')) :
    ∃ size ms,
      st'.heap.at' k = some (.compoundT kind die.attrs.nameA size ms) ∧
      ms.length = (memberChildren die).length ∧
      ∀ i (hi : i < (memberChildren die).length) (hi' : i < ms.length),
        ∃ t, ((memberChildren die).get ⟨i, hi⟩).attrs.typeRef = some t ∧
          (ms.get ⟨i, hi'⟩).ty = .thunk t
            (if i = ms.length - 1 then
              decide (kind ≠ CompKind.unionC) && decide (0 < i)
            else false) := by
  simp only [drgn_compound_type_from_dwarf, hdecl] at h
  rcases hbs : die.attrs.byteSize with _ | size <;> simp only [hbs] at h
  · exact Except.noConfusion (pair_eq_inv h).1
  · rcases hpm : processMembers rec img img.littleEndian kind
        (memberChildren die) [] st with ⟨pr, ps⟩
    simp only [hpm] at h
    rcases pr with e | members
    · exact Except.noConfusion (pair_eq_inv h).1
    · obtain ⟨h1, h2⟩ := pair_eq_inv h
      obtain ⟨tail, htail, hlen, hflags⟩ :=
        processMembers_thunk_flags rec img kind (memberChildren die) [] st
          members ps (fun x hx => hne x hx) hpm
      rw [List.nil_append] at htail
      subst htail
      simp only [List.length_nil, Nat.zero_add] at hflags
      refine ⟨size, members, ?_, hlen, ?_⟩
      · rw [h2, Except.ok.inj h1]
        exact heap_at_alloc ps.heap
          (.compoundT kind die.attrs.nameA size members)
      · intro i hi hi'
        obtain ⟨t, h3, h4⟩ := hflags i hi hi'
        refine ⟨t, h3, ?_⟩
        rw [h4, hlen]

/-- A two-member struct: both members refer to the `int` at address 9 and
carry `DW_AT_data_bit_offset`, so neither needs eager evaluation. -/
def c5Mem (nm : String) (dbo : Nat) : Die :=
  .mk DW_TAG_member
    { nameA := some nm, typeRef := some 9, dataBitOffset := some dbo } []

def c5Die : Die :=
  .mk DW_TAG_structure_type { byteSize := some 8 }
    [c5Mem "a" 0, c5Mem "b" 32]

def c5Img : Image :=
  { dies := fun a =>
      if a = 9 then
        some (.mk DW_TAG_base_type
          { nameA := some "int", encoding := some DW_ATE_signed,
            byteSize := some 4 } [])
      else none,
    littleEndian := true, wordSize := 8, index := fun _ _ => [] }

/-- The state after materializing `c5Die`: the compound at handle 1, the
first member's thunk created with `false`, the last member's with
`true`. -/
def c5St : State :=
  { map := fun _ => none, cmap := fun _ => none, depth := 0,
    heap := ⟨[.compoundT .structC none 8
      [⟨some "a", .thunk 9 false, 0, 0⟩, ⟨some "b", .thunk 9 true, 32, 0⟩],
      .voidT], 2⟩ }

theorem compound_member_canInc_flags_witness :
    ∃ size ms,
      c5St.heap.at' 1 =
        some (.compoundT .structC c5Die.attrs.nameA size ms) ∧
      ms.length = (memberChildren c5Die).length ∧
      ∀ i (hi : i < (memberChildren c5Die).length) (hi' : i < ms.length),
        ∃ t, ((memberChildren c5Die).get ⟨i, hi⟩).attrs.typeRef = some t ∧
          (ms.get ⟨i, hi'⟩).ty = .thunk t
            (if i = ms.length - 1 then
              decide (CompKind.structC ≠ CompKind.unionC) && decide (0 < i)
            else false) :=
  compound_member_canInc_flags (fun s _ _ => (.error .lookup, s)) c5Img
    initState c5Die .structC 1 c5St rfl (by decide) rfl

/-! ## Claim C9: declaration DIEs and the name index -/

/-- C9: for a compound or enum DIE that is a declaration with a tag name,
when the name index yields two or more matches the materializer returns a
freshly allocated *incomplete* compound/enum descriptor (none of the
candidate definitions); when the index yields exactly one match, that
definition is materialized through the memoization core and its handle is
returned. -/
theorem decl_index_disambiguation (rec : Resolver) (img : Image)
    (st : State) (die : Die) (kind : CompKind) (n : String)
    (hdecl : die.attrs.declFlag = true)
    (hname : die.attrs.nameA = some n) :
    (∀ d1 d2 ds, img.index kind.toTag n = d1 :: d2 :: ds →
      drgn_compound_type_from_dwarf rec img st die kind =
        (.ok st.heap.size,
         { st with heap := (st.heap.alloc
             (.incompleteCompoundT kind (some n))).2 })) ∧
    (∀ d, img.index kind.toTag n = [d] →
      ∀ v w st', rec st d true = (.ok (v, w), st') →
        drgn_compound_type_from_dwarf rec img st die kind =
          (.ok v.type, st')) ∧
    (∀ d1 d2 ds, img.index DW_TAG_enumeration_type n = d1 :: d2 :: ds →
      drgn_enum_type_from_dwarf rec img st die =
        (.ok st.heap.size,
         { st with heap := (st.heap.alloc (.incompleteEnumT (some n))).2 })) ∧
    (∀ d, img.index DW_TAG_enumeration_type n = [d] →
      ∀ v w st', rec st d true = (.ok (v, w), st') →
        drgn_enum_type_from_dwarf rec img st die = (.ok v.type, st')) := by
  refine ⟨?_, ?_, ?_, ?_⟩
  · intro d1 d2 ds hidx
    simp [drgn_compound_type_from_dwarf, hdecl, hname,
      drgn_dwarf_info_cache_find_complete, hidx, State.alloc, Heap.alloc]
  · intro d hidx v w st' hrec
    simp [drgn_compound_type_from_dwarf, hdecl, hname,
      drgn_dwarf_info_cache_find_complete, hidx, hrec]
  · intro d1 d2 ds hidx
    simp [drgn_enum_type_from_dwarf, hdecl, hname,
      drgn_dwarf_info_cache_find_complete, hidx, State.alloc, Heap.alloc]
  · intro d hidx v w st' hrec
    simp [drgn_enum_type_from_dwarf, hdecl, hname,
      drgn_dwarf_info_cache_find_complete, hidx, hrec]

/-- A declaration-only `struct s` DIE, with an index offering two struct
definitions named `s` and one enum definition named `s`. -/
def c9Die : Die :=
  .mk DW_TAG_structure_type { nameA := some "s", declFlag := true } []

def c9Img : Image :=
  { dies := fun _ => none, littleEndian := true, wordSize := 8,
    index := fun t nm =>
      if nm = "s" ∧ t = DW_TAG_structure_type then [7, 8]
      else if nm = "s" ∧ t = DW_TAG_enumeration_type then [9]
      else [] }

theorem decl_index_disambiguation_witness :
    (∀ d1 d2 ds,
      c9Img.index CompKind.structC.toTag "s" = d1 :: d2 :: ds →
      drgn_compound_type_from_dwarf (fun s _ _ => (.ok (⟨0, 0⟩, none), s))
          c9Img initState c9Die .structC =
        (.ok initState.heap.size,
         { initState with heap := (initState.heap.alloc
             (.incompleteCompoundT .structC (some "s"))).2 })) ∧
    (∀ d, c9Img.index CompKind.structC.toTag "s" = [d] →
      ∀ v w st',
        (fun (s : State) (_ : Addr) (_ : Bool) =>
          ((.ok (⟨0, 0⟩, none), s) : RRes)) initState d true =
          (.ok (v, w), st') →
        drgn_compound_type_from_dwarf (fun s _ _ => (.ok (⟨0, 0⟩, none), s))
            c9Img initState c9Die .structC = (.ok v.type, st')) ∧
    (∀ d1 d2 ds,
      c9Img.index DW_TAG_enumeration_type "s" = d1 :: d2 :: ds →
      drgn_enum_type_from_dwarf (fun s _ _ => (.ok (⟨0, 0⟩, none), s))
          c9Img initState c9Die =
        (.ok initState.heap.size,
         { initState with heap := (initState.heap.alloc
             (.incompleteEnumT (some "s"))).2 })) ∧
    (∀ d, c9Img.index DW_TAG_enumeration_type "s" = [d] →
      ∀ v w st',
        (fun (s : State) (_ : Addr) (_ : Bool) =>
          ((.ok (⟨0, 0⟩, none), s) : RRes)) initState d true =
          (.ok (v, w), st') →
        drgn_enum_type_from_dwarf (fun s _ _ => (.ok (⟨0, 0⟩, none), s))
            c9Img initState c9Die = (.ok v.type, st')) :=
  decl_index_disambiguation (fun s _ _ => (.ok (⟨0, 0⟩, none), s)) c9Img
    initState c9Die .structC "s" rfl rfl

/-! ## Claim C10: the enumerator scan's `UNREACHABLE()` -/

/-- C10: when `drgn_object_from_dwarf_enumerator` materializes the parent
enumeration and the scan of its enumerator list finds no enumerator with
the requested name, control reaches `UNREACHABLE()` — no `NotFound` or
other `drgn_error` is produced; the branch is benign only under the
assumption that the name index is consistent with the enumeration's DWARF
children. -/
theorem enumerator_no_match_unreachable (rec : Resolver) (st st' : State)
    (a : Addr) (nm : String) (v : QualType) (w : Option Bool)
    (items : List EnumItem) (tn : Option String) (ct : TypeHandle)
    (hres : rec st a true = (.ok (v, w), st'))
    (hheap : st'.heap.at' v.type = some (.enumT tn ct items))
    (hnone : items.find? (fun it => it.nameA = nm) = none) :
    drgn_object_from_dwarf_enumerator rec st a nm =
      (.unreachableHit, st') := by
  simp [drgn_object_from_dwarf_enumerator, hres, hheap, hnone]

/-- An enumeration DIE (address 0) with a single enumerator `A`, no
`DW_AT_type` (the fallback `int` compatible type is used). -/
def c10Img : Image :=
  { dies := fun a =>
      if a = 0 then
        some (.mk DW_TAG_enumeration_type { byteSize := some 4 }
          [.mk DW_TAG_enumerator
            { nameA := some "A", constValue := some ⟨.udata, 1⟩ } []])
      else none,
    littleEndian := true, wordSize := 8, index := fun _ _ => [] }

/-- The state after materializing the enumeration of `c10Img`: the
fallback `int` at handle 1, the enum at handle 2. -/
def c10St : State :=
  { map := mapInsert (fun _ => none) 0 ⟨2, 0, false⟩,
    cmap := fun _ => none, depth := 0,
    heap := ⟨[.enumT none 1 [⟨"A", 1, false⟩], .intT "<unknown>" 4 false,
      .voidT], 3⟩ }

theorem enumerator_no_match_unreachable_witness :
    drgn_object_from_dwarf_enumerator
        (drgn_type_from_dwarf_internal topFuel c10Img) initState 0 "B" =
      (.unreachableHit, c10St) :=
  enumerator_no_match_unreachable
    (drgn_type_from_dwarf_internal topFuel c10Img) initState c10St 0 "B"
    ⟨2, 0⟩ (some false) [⟨"A", 1, false⟩] none 1 rfl rfl rfl

/-! ## Claim C8: the legacy `DW_AT_bit_offset` member-offset formula -/

/-- C8: for a member DIE with no `DW_AT_data_bit_offset` but with
`DW_AT_bit_offset = bo`: on a little-endian target the computed bit offset
is `8*data_member_location (default 0) + 8*byte_size - bo - bit_field_size`
in 64-bit arithmetic, with `byte_size` taken from `DW_AT_byte_size` when
present and otherwise from the member's type (evaluated in place, failing
when that type has no size); within `uint64_t` range this is the plain
arithmetic value.  On a big-endian target the offset is
`8*data_member_location + bo`. -/
theorem parse_member_offset_bit_offset_formula (rec : Resolver) (st : State)
    (die : Die) (mt : LazyType) (bfs bo : Nat)
    (hdbo : die.attrs.dataBitOffset = none)
    (hbo : die.attrs.bitOffset = some bo) :
    (∀ bs, die.attrs.byteSize = some bs →
      parse_member_offset rec st die mt bfs true =
        (.ok (add64 (mul64 8 (die.attrs.dataMemberLocation.getD 0))
          (sub64 (sub64 (mul64 8 bs) bo) bfs), mt), st)) ∧
    (∀ bs, die.attrs.byteSize = some bs → bo + bfs ≤ 8 * bs →
      8 * (die.attrs.dataMemberLocation.getD 0) + 8 * bs < w64 →
      parse_member_offset rec st die mt bfs true =
        (.ok (8 * (die.attrs.dataMemberLocation.getD 0) +
          (8 * bs - bo - bfs), mt), st)) ∧
    (die.attrs.byteSize = none →
      ∀ qt mt' st₁, drgn_lazy_type_evaluate rec st mt = (.ok (qt, mt'), st₁) →
        typeSize st₁.heap qt.type = none →
        parse_member_offset rec st die mt bfs true =
          (.error (.other "DW_TAG_member bit field type does not have size"),
           st₁)) ∧
    (die.attrs.byteSize = none →
      ∀ qt mt' st₁ s,
        drgn_lazy_type_evaluate rec st mt = (.ok (qt, mt'), st₁) →
        typeSize st₁.heap qt.type = some s →
        parse_member_offset rec st die mt bfs true =
          (.ok (add64 (mul64 8 (die.attrs.dataMemberLocation.getD 0))
            (sub64 (sub64 (mul64 8 s) bo) bfs), mt'), st₁)) ∧
    parse_member_offset rec st die mt bfs false =
      (.ok (add64 (mul64 8 (die.attrs.dataMemberLocation.getD 0)) bo, mt),
       st) := by
  refine ⟨?_, ?_, ?_, ?_, ?_⟩
  · intro bs hbs
    simp [parse_member_offset, hdbo, hbo, hbs]
  · intro bs hbs hle hlt
    have hmod : add64 (mul64 8 (die.attrs.dataMemberLocation.getD 0))
        (sub64 (sub64 (mul64 8 bs) bo) bfs) =
        8 * (die.attrs.dataMemberLocation.getD 0) + (8 * bs - bo - bfs) := by
      simp only [add64, sub64, mul64, w64] at *
      omega
    rw [← hmod]
    simp [parse_member_offset, hdbo, hbo, hbs]
  · intro hbs qt mt' st₁ heval hts
    simp [parse_member_offset, hdbo, hbo, hbs, heval, hts]
  · intro hbs qt mt' st₁ s heval hts
    simp [parse_member_offset, hdbo, hbo, hbs, heval, hts]
  · simp [parse_member_offset, hdbo, hbo]

/-- A 4-byte bit-field member DIE: byte offset 0 (no
`DW_AT_data_member_location`), `DW_AT_bit_offset = 29`. -/
def c8Die : Die :=
  .mk DW_TAG_member { byteSize := some 4, bitOffset := some 29 } []

theorem parse_member_offset_bit_offset_formula_witness :
    (∀ bs, c8Die.attrs.byteSize = some bs →
      parse_member_offset (fun s _ _ => (.error .lookup, s)) initState c8Die
          (.val ⟨0, 0⟩) 3 true =
        (.ok (add64 (mul64 8 (c8Die.attrs.dataMemberLocation.getD 0))
          (sub64 (sub64 (mul64 8 bs) 29) 3), .val ⟨0, 0⟩), initState)) ∧
    (∀ bs, c8Die.attrs.byteSize = some bs → 29 + 3 ≤ 8 * bs →
      8 * (c8Die.attrs.dataMemberLocation.getD 0) + 8 * bs < w64 →
      parse_member_offset (fun s _ _ => (.error .lookup, s)) initState c8Die
          (.val ⟨0, 0⟩) 3 true =
        (.ok (8 * (c8Die.attrs.dataMemberLocation.getD 0) +
          (8 * bs - 29 - 3), .val ⟨0, 0⟩), initState)) ∧
    (c8Die.attrs.byteSize = none →
      ∀ qt mt' st₁,
        drgn_lazy_type_evaluate (fun s _ _ => (.error .lookup, s)) initState
          (.val ⟨0, 0⟩) = (.ok (qt, mt'), st₁) →
        typeSize st₁.heap qt.type = none →
        parse_member_offset (fun s _ _ => (.error .lookup, s)) initState c8Die
            (.val ⟨0, 0⟩) 3 true =
          (.error (.other "DW_TAG_member bit field type does not have size"),
           st₁)) ∧
    (c8Die.attrs.byteSize = none →
      ∀ qt mt' st₁ s,
        drgn_lazy_type_evaluate (fun s _ _ => (.error .lookup, s)) initState
          (.val ⟨0, 0⟩) = (.ok (qt, mt'), st₁) →
        typeSize st₁.heap qt.type = some s →
        parse_member_offset (fun s _ _ => (.error .lookup, s)) initState c8Die
            (.val ⟨0, 0⟩) 3 true =
          (.ok (add64 (mul64 8 (c8Die.attrs.dataMemberLocation.getD 0))
            (sub64 (sub64 (mul64 8 s) 29) 3), mt'), st₁)) ∧
    parse_member_offset (fun s _ _ => (.error .lookup, s)) initState c8Die
        (.val ⟨0, 0⟩) 3 false =
      (.ok (add64 (mul64 8 (c8Die.attrs.dataMemberLocation.getD 0)) 29,
        .val ⟨0, 0⟩), initState) :=
  parse_member_offset_bit_offset_formula
    (fun s _ _ => (.error .lookup, s)) initState c8Die (.val ⟨0, 0⟩) 3 29
    rfl rfl

/-- The claim's concrete instance: the little-endian 4-byte field with
`bit_offset = 29` and `bit_field_size = 3` sits at bit offset 0, the same
field big-endian at bit offset 29 (witnessed through `c8Die` and the
formula of `parse_member_offset`). -/
theorem parse_member_offset_example :
    parse_member_offset (fun s _ _ => (.error .lookup, s)) initState c8Die
        (.val ⟨0, 0⟩) 3 true = (.ok (0, .val ⟨0, 0⟩), initState) ∧
    parse_member_offset (fun s _ _ => (.error .lookup, s)) initState c8Die
        (.val ⟨0, 0⟩) 3 false = (.ok (29, .val ⟨0, 0⟩), initState) :=
  ⟨rfl, rfl⟩

/-! ## Claim C2: repeated resolution of an incomplete array -/

/-- An incomplete array type (address 1) of `int` (address 2). -/
def c2Img : Image :=
  { dies := fun a =>
      if a = 1 then some (.mk DW_TAG_array_type { typeRef := some 2 } [])
      else if a = 2 then
        some (.mk DW_TAG_base_type
          { nameA := some "int", encoding := some DW_ATE_signed,
            byteSize := some 4 } [])
      else none,
    littleEndian := true, wordSize := 8, index := fun _ _ => [] }

/-- C2 exhibited on `c2Img`: `resolve(D, true)` succeeds and reports
`is_incomplete_array = true`; the first `resolve(D, false)` re-materializes
(the primary hit is an incomplete array and the restricted map is empty),
returns a zero-length outermost array, and writes `true`; but the next
`resolve(D, false)` is answered from the restricted map and returns
WITHOUT writing the out-parameter (`none`) — in the C code the caller's
`is_incomplete_array_ret` variable is left untouched on that path,
contradicting the claim (and the function's own doc comment, which
promises the flag is set "regardless"). -/
theorem array_cmap_hit_skips_out_write :
    (resolveTop c2Img initState 1 true).1 = .ok (⟨2, 0⟩, some true) ∧
    (resolveTop c2Img (resolveTop c2Img initState 1 true).2 1 false).1 =
      .ok (⟨3, 0⟩, some true) ∧
    (resolveTop c2Img (resolveTop c2Img initState 1 true).2 1 false).2.heap.at'
      3 = some (.arrayT ⟨1, 0⟩ 0) ∧
    (resolveTop c2Img
        (resolveTop c2Img (resolveTop c2Img initState 1 true).2 1 false).2
        1 false).1 = .ok (⟨3, 0⟩, none) :=
  ⟨rfl, rfl, rfl, rfl⟩

theorem qualifier_dispatch_reports_false_witness :
    drgn_type_from_dwarf_internal (1000 + 1) c6Img initState 0 true =
      (.ok (⟨(⟨2, 0⟩ : QualType).type,
        Nat.lor (⟨2, 0⟩ : QualType).quals DRGN_QUALIFIER_CONST⟩, some false),
       { c6St2 with
         depth := c6St2.depth - 1,
         map := mapInsert c6St2.map 0
           ⟨(⟨2, 0⟩ : QualType).type,
            Nat.lor (⟨2, 0⟩ : QualType).quals DRGN_QUALIFIER_CONST,
            false⟩ }) :=
  qualifier_dispatch_reports_false c6Img 1000 initState 0 1 true
    (.mk DW_TAG_const_type { typeRef := some 1 } [])
    (.mk DW_TAG_array_type { typeRef := some 2 } [])
    DRGN_QUALIFIER_CONST "DW_TAG_const_type" ⟨2, 0⟩ (some true) c6St2
    (by decide) rfl rfl (by decide) rfl rfl rfl

end Drgn
